import Mathlib

/-!
Shallow embedding of the endian-io library (`src/endian_io.c`): the byte-swap
primitives (`bswap16/32/64`, `reverse_bytes`, `convert_endian`) and the
conversion-and-transfer engine (`write_endian`, `read_endian`), together with
proofs of the specified properties.

Bytes are modelled as `Nat` (values `< 256` where it matters), buffers and
streams as `List Nat`.  Machine-integer arithmetic in the byte-swap helpers is
modelled with explicit `% 2 ^ w` truncation.  The host byte order, detected at
runtime by `is_little_endian` in the C code, is passed as an explicit
parameter.  `FILE*` streams are modelled as byte lists: on the write side the
stream records the payload of every `fwrite` call and has a byte capacity
(`fwrite` transfers whole elements while capacity remains, so a too-small
capacity models a short write); on the read side `fread` consumes bytes from
the front of the stream list.
-/

namespace EndianIO

/-! ### Definitions: the embedded program -/

/-- Byte order, as the `endian_t` enumeration of `endian_io.c`. -/
inductive Endian where
  | little
  | big
deriving DecidableEq

/-- Host byte-order test `is_little_endian` (the runtime byte inspection is
modelled by passing the host order explicitly). -/
def is_little_endian (host : Endian) : Bool :=
  decide (host = Endian.little)

/-- `swap_needed = (host_little && target == BIG) || (!host_little && target == LITTLE)`,
as computed identically in `write_endian` and `read_endian`. -/
def swap_needed (host target : Endian) : Bool :=
  (is_little_endian host && decide (target = Endian.big)) ||
  (!is_little_endian host && decide (target = Endian.little))

/-- Portable 16-bit byte swap: the `bswap16` fallback formula
`(x >> 8) | (x << 8)`, truncated to 16 bits on return (the `__builtin_bswap16`
branch computes the same function). -/
def bswap16 (x : Nat) : Nat :=
  ((x >>> 8) ||| (x <<< 8)) % 2 ^ 16

/-- Portable 32-bit byte swap: the `bswap32` fallback mask-and-shift formula on
`uint32_t` (left shifts truncate to 32 bits). -/
def bswap32 (x : Nat) : Nat :=
  ((x >>> 24) &&& 0xFF) |||
  ((x >>> 8) &&& 0xFF00) |||
  ((x <<< 8) % 2 ^ 32 &&& 0xFF0000) |||
  ((x <<< 24) % 2 ^ 32 &&& 0xFF000000)

/-- Portable 64-bit byte swap: the `bswap64` fallback mask-and-shift formula on
`uint64_t` (left shifts truncate to 64 bits). -/
def bswap64 (x : Nat) : Nat :=
  ((x >>> 56) &&& 0xFF) |||
  ((x >>> 40) &&& 0xFF00) |||
  ((x >>> 24) &&& 0xFF0000) |||
  ((x >>> 8) &&& 0xFF000000) |||
  ((x <<< 8) % 2 ^ 64 &&& 0xFF00000000) |||
  ((x <<< 24) % 2 ^ 64 &&& 0xFF0000000000) |||
  ((x <<< 40) % 2 ^ 64 &&& 0xFF000000000000) |||
  ((x <<< 56) % 2 ^ 64 &&& 0xFF00000000000000)

/-- One iteration of the `reverse_bytes` loop body: `tmp = data[i];
data[i] = data[n-1-i]; data[n-1-i] = tmp`. -/
def swapStep (n : Nat) (d : List Nat) (i : Nat) : List Nat :=
  (d.set i (d.getD (n - 1 - i) 0)).set (n - 1 - i) (d.getD i 0)

/-- Generic in-place reversal `reverse_bytes`: swap from both ends toward the
middle, `for (i = 0; i < size / 2; i++)`. -/
def reverse_bytes (data : List Nat) : List Nat :=
  (List.range (data.length / 2)).foldl (swapStep data.length) data

/-- Value of a byte list read least-significant-byte-first. -/
def bytesToNatLE : List Nat → Nat
  | [] => 0
  | b :: bs => b + 256 * bytesToNatLE bs

/-- The `size` low-order base-256 digits of `x`, least significant first. -/
def natToBytesLE : Nat → Nat → List Nat
  | 0, _ => []
  | n + 1, x => x % 256 :: natToBytesLE n (x / 256)

/-- Read an element's bytes as a machine integer in host byte order (models
the `*(uintN_t*)elem` reinterpretation in `convert_endian`). -/
def loadNat (host : Endian) (l : List Nat) : Nat :=
  match host with
  | .little => bytesToNatLE l
  | .big => bytesToNatLE l.reverse

/-- Store a machine integer back into an element's bytes in host byte order. -/
def storeNat (host : Endian) (size x : Nat) : List Nat :=
  match host with
  | .little => natToBytesLE size x
  | .big => (natToBytesLE size x).reverse

/-- `convert_endian`: dispatch on the element size, using the optimized
`bswapN` on the value reinterpreted in host order for sizes 2, 4, 8, and the
generic `reverse_bytes` for every other size. -/
def convert_endian (host : Endian) (elem : List Nat) : List Nat :=
  match elem.length with
  | 2 => storeNat host 2 (bswap16 (loadNat host elem))
  | 4 => storeNat host 4 (bswap32 (loadNat host elem))
  | 8 => storeNat host 8 (bswap64 (loadNat host elem))
  | _ => reverse_bytes elem

/-- Element `j` (a `size`-byte slice) of a flat byte buffer. -/
def element (data : List Nat) (size j : Nat) : List Nat :=
  (data.drop (j * size)).take size

/-- Overwrite the bytes of `l` starting at position `p` with `xs`, modelling
`memcpy(l + p, xs, xs.length)`. -/
def writeSlice (l : List Nat) (p : Nat) (xs : List Nat) : List Nat :=
  l.take p ++ (xs ++ l.drop (p + xs.length))

/-- Mutable state of a `write_endian` call: the caller's source buffer, the
scratch buffer, the stream's remaining byte capacity, and the payloads of the
`fwrite` calls made so far (the stream contents are their concatenation). -/
structure WState where
  data : List Nat
  buffer : List Nat
  cap : Nat
  calls : List (List Nat)
deriving DecidableEq, Repr

/-- Result status of a write call: success (`0`), error (`-1`), or fuel
exhausted at element offset `off` (the C loop would still be running). -/
inductive WStatus where
  | ok
  | err
  | spin (off : Nat)
deriving DecidableEq, Repr

/-- Model of `fwrite(buf, size, count, file)` on a stream with `cap` bytes of
remaining capacity: transfers whole elements while capacity remains and
returns the element count transferred (short when the stream is full). -/
def fwriteCount (cap size count : Nat) : Nat :=
  min count (cap / size)

/-- Body of the copy-and-swap loop of the write swap path: `memcpy` element
`offset + i` of the source into slot `i` of the scratch buffer, then
`convert_endian` that slot in place. -/
def fillStep (host : Endian) (size offset : Nat) (st : WState) (i : Nat) : WState :=
  let copied := writeSlice st.buffer (i * size) (element st.data size (offset + i))
  let swapped := writeSlice copied (i * size) (convert_endian host ((copied.drop (i * size)).take size))
  ⟨st.data, swapped, st.cap, st.calls⟩

/-- The copy-and-swap loop over one batch (`for (i = 0; i < batch; i++)`). -/
def fillBuffer (host : Endian) (size offset batch : Nat) (s : WState) : WState :=
  (List.range batch).foldl (fillStep host size offset) s

/-- Batching loop of the write swap path, with explicit fuel (the C loop is
unbounded; `spin` records that `fuel` iterations did not finish). -/
def writeLoop (host : Endian) (num size blockElems : Nat) :
    Nat → Nat → WState → WStatus × WState
  | 0, offset, s => (WStatus.spin offset, s)
  | fuel + 1, offset, s =>
    if offset < num then
      let batch := if num - offset < blockElems then num - offset else blockElems
      let s2 := fillBuffer host size offset batch s
      let t := fwriteCount s2.cap size batch
      if t ≠ batch then
        (WStatus.err,
          { s2 with cap := s2.cap - t * size,
                    calls := s2.calls ++ [s2.buffer.take (t * size)] })
      else
        writeLoop host num size blockElems fuel (offset + batch)
          { s2 with cap := s2.cap - batch * size,
                    calls := s2.calls ++ [s2.buffer.take (batch * size)] }
    else
      (WStatus.ok, s)

/-- The scratch-buffer size of the write swap path (`buffer_size = 256`);
alignment, being invisible at byte level, is not modelled. -/
def buffer_size : Nat := 256

/-- `write_endian(file, data, num, size, target_endian)`.  `filePresent` and
`dataOpt` model the `FILE*` and `const uint8_t*` arguments (`none` for NULL);
`allocOk` tells whether the scratch-buffer allocation succeeds; `cap` is the
stream's remaining byte capacity; `fuel` bounds the batching loop. -/
def write_endian (host : Endian) (filePresent : Bool) (dataOpt : Option (List Nat))
    (num size : Nat) (target_endian : Endian) (allocOk : Bool) (cap fuel : Nat) :
    WStatus × WState :=
  let data := dataOpt.getD []
  let s0 : WState := ⟨data, List.replicate buffer_size 0, cap, []⟩
  if !filePresent || dataOpt.isNone || size == 0 || num == 0 then
    (WStatus.err, s0)
  else
    if !swap_needed host target_endian then
      let t := fwriteCount cap size num
      if t == num then
        (WStatus.ok, { s0 with cap := cap - num * size, calls := [data.take (num * size)] })
      else
        (WStatus.err, { s0 with cap := cap - t * size, calls := [data.take (t * size)] })
    else
      if !allocOk then
        (WStatus.err, s0)
      else
        writeLoop host num size (buffer_size / size) fuel 0 s0

/-- Mutable state of a `read_endian` call: the caller's destination buffer and
the bytes remaining on the stream. -/
structure RState where
  data : List Nat
  stream : List Nat
deriving DecidableEq, Repr

/-- Element-at-a-time loop of `read_endian`: `fread(dst, 1, size)` directly
into the destination at offset `i * size` (a short read stores the bytes that
were available and fails), then swap that element in place if needed. -/
def readLoop (host : Endian) (swap_needed : Bool) (size : Nat) :
    Nat → Nat → RState → Bool × RState
  | 0, _, s => (true, s)
  | n + 1, i, s =>
    let chunk := s.stream.take size
    let s2 : RState := ⟨writeSlice s.data (i * size) chunk, s.stream.drop size⟩
    if chunk.length ≠ size then
      (false, s2)
    else
      let s3 : RState :=
        if swap_needed then
          ⟨writeSlice s2.data (i * size)
              (convert_endian host ((s2.data.drop (i * size)).take size)),
            s2.stream⟩
        else s2
      readLoop host swap_needed size n (i + 1) s3

/-- `read_endian(file, data, num, size, source_endian)`; `stream` holds the
byte contents remaining in the file. -/
def read_endian (host : Endian) (filePresent : Bool) (dataOpt : Option (List Nat))
    (num size : Nat) (source_endian : Endian) (stream : List Nat) :
    Bool × RState :=
  let data := dataOpt.getD []
  if !filePresent || dataOpt.isNone || size == 0 then
    (false, ⟨data, stream⟩)
  else
    readLoop host (swap_needed host source_endian) size num 0 ⟨data, stream⟩

/-- Public wrapper `write_be(file, data, num, size)`. -/
def write_be (host : Endian) (filePresent : Bool) (dataOpt : Option (List Nat))
    (num size : Nat) (allocOk : Bool) (cap fuel : Nat) : WStatus × WState :=
  write_endian host filePresent dataOpt num size Endian.big allocOk cap fuel

/-- Public wrapper `write_le(file, data, num, size)`. -/
def write_le (host : Endian) (filePresent : Bool) (dataOpt : Option (List Nat))
    (num size : Nat) (allocOk : Bool) (cap fuel : Nat) : WStatus × WState :=
  write_endian host filePresent dataOpt num size Endian.little allocOk cap fuel

/-- Public wrapper `read_be(file, data, num, size)`. -/
def read_be (host : Endian) (filePresent : Bool) (dataOpt : Option (List Nat))
    (num size : Nat) (stream : List Nat) : Bool × RState :=
  read_endian host filePresent dataOpt num size Endian.big stream

/-- Public wrapper `read_le(file, data, num, size)`. -/
def read_le (host : Endian) (filePresent : Bool) (dataOpt : Option (List Nat))
    (num size : Nat) (stream : List Nat) : Bool × RState :=
  read_endian host filePresent dataOpt num size Endian.little stream

/-- The byte-swapped images of `batch` consecutive elements starting at
element `offset`, concatenated: the payload one batch contributes. -/
def convertedSlice (host : Endian) (data : List Nat) (size offset batch : Nat) : List Nat :=
  ((List.range batch).map (fun i => convert_endian host (element data size (offset + i)))).flatten

/-- Batch sizes as the specification states them: repeatedly process
`min(remaining, blockElems)` elements until none remain. -/
def specBatches : Nat → Nat → Nat → List Nat
  | 0, _, _ => []
  | fuel + 1, n, be => if n = 0 then [] else min n be :: specBatches fuel (n - min n be) be

/-- The bytes the read loop deposits in the destination: one `size`-byte
chunk per element, swapped in place when `swap_needed`. -/
def readBytes (host : Endian) (swap : Bool) (size : Nat) : Nat → List Nat → List Nat
  | 0, _ => []
  | n + 1, stream =>
      (if swap then convert_endian host (stream.take size) else stream.take size)
        ++ readBytes host swap size n (stream.drop size)

/-- The flat byte image of an element-value array in a given byte order. -/
def hostData (host : Endian) (size : Nat) (vals : List Nat) : List Nat :=
  (vals.map (storeNat host size)).flatten

/-- A flat stream with each `size`-byte element reversed in place. -/
def reversedElements (stream : List Nat) (size num : Nat) : List Nat :=
  ((List.range num).map (fun j => (element stream size j).reverse)).flatten

/-! ### Theorems -/

/-- Masking with a single-byte mask `0xFF << k` extracts the byte at bit
position `k`. -/
theorem and_byte_mask_core (x k : Nat) :
    x &&& (2 ^ 8 - 1) * 2 ^ k = x / 2 ^ k % 2 ^ 8 * 2 ^ k := by
  apply Nat.eq_of_testBit_eq
  intro i
  rw [← Nat.shiftRight_eq_div_pow]
  rw [Nat.mul_comm ((2 : Nat) ^ 8 - 1) (2 ^ k), Nat.mul_comm (x >>> k % 2 ^ 8) (2 ^ k)]
  simp only [Nat.testBit_and, Nat.testBit_mul_pow_two, Nat.testBit_mod_two_pow,
    Nat.testBit_shiftRight, Nat.testBit_two_pow_sub_one]
  by_cases h : k ≤ i
  · have h2 : k + (i - k) = i := by omega
    simp [ge_iff_le, h, h2, Bool.and_comm, Bool.and_left_comm]
  · simp [ge_iff_le, h]

/-- Literal-friendly form of `and_byte_mask_core`. -/
theorem and_byte_mask (n : Nat) {m : Nat} (k : Nat) (hm : (2 ^ 8 - 1) * 2 ^ k = m)
    (hn : 2 ^ k = n) (x : Nat) :
    x &&& m = x / n % 256 * n := by
  subst hm
  subst hn
  exact and_byte_mask_core x k

/-- Bitwise or of values occupying disjoint bit ranges is addition. -/
theorem or_add_disjoint {b m : Nat} (i : Nat) (him : 2 ^ i = m) (hb : b < m)
    (a : Nat) : b ||| m * a = m * a + b := by
  subst him
  rw [Nat.or_comm]
  exact (Nat.mul_add_lt_is_or hb a).symm

/-- `bswap16` reverses the two base-256 digits of a 16-bit value. -/
theorem bswap16_bytes {a b : Nat} (ha : a < 256) (hb : b < 256) :
    bswap16 (a + 256 * b) = b + 256 * a := by
  unfold bswap16
  have h1 : (a + 256 * b) >>> 8 = b := by
    rw [Nat.shiftRight_eq_div_pow]
    simp only [show (2 : Nat) ^ 8 = 256 from by norm_num]
    omega
  have h2 : (a + 256 * b) <<< 8 = 2 ^ 8 * (a + 256 * b) := by
    rw [Nat.shiftLeft_eq, Nat.mul_comm]
  rw [h1, h2, or_add_disjoint 8 rfl (by omega) (a + 256 * b)]
  simp only [show (2 : Nat) ^ 8 = 256 from by norm_num,
    show (2 : Nat) ^ 16 = 65536 from by norm_num]
  omega

/-- `bswap32` reverses the four base-256 digits of a 32-bit value. -/
theorem bswap32_bytes {a b c d : Nat} (ha : a < 256) (hb : b < 256)
    (hc : c < 256) (hd : d < 256) :
    bswap32 (a + 256 * b + 65536 * c + 16777216 * d)
      = d + 256 * c + 65536 * b + 16777216 * a := by
  unfold bswap32
  set x := a + 256 * b + 65536 * c + 16777216 * d with hx
  have t1 : x >>> 24 &&& 0xFF = d := by
    rw [Nat.shiftRight_eq_div_pow, and_byte_mask 1 0 (by norm_num) (by norm_num)]
    simp only [show (2 : Nat) ^ 24 = 16777216 from by norm_num]
    omega
  have t2 : x >>> 8 &&& 0xFF00 = 256 * c := by
    rw [Nat.shiftRight_eq_div_pow, and_byte_mask 256 8 (by norm_num) (by norm_num)]
    simp only [show (2 : Nat) ^ 8 = 256 from by norm_num]
    omega
  have t3 : x <<< 8 % 2 ^ 32 &&& 0xFF0000 = 65536 * b := by
    rw [Nat.shiftLeft_eq, and_byte_mask 65536 16 (by norm_num) (by norm_num)]
    simp only [show (2 : Nat) ^ 8 = 256 from by norm_num,
      show (2 : Nat) ^ 32 = 4294967296 from by norm_num]
    omega
  have t4 : x <<< 24 % 2 ^ 32 &&& 0xFF000000 = 16777216 * a := by
    rw [Nat.shiftLeft_eq, and_byte_mask 16777216 24 (by norm_num) (by norm_num)]
    simp only [show (2 : Nat) ^ 24 = 16777216 from by norm_num,
      show (2 : Nat) ^ 32 = 4294967296 from by norm_num]
    omega
  rw [t1, t2, t3, t4]
  have o1 : d ||| 256 * c = 256 * c + d := or_add_disjoint 8 (by norm_num) hd c
  have o2 : 256 * c + d ||| 65536 * b = 65536 * b + (256 * c + d) :=
    or_add_disjoint 16 (by norm_num) (by omega) b
  have o3 : 65536 * b + (256 * c + d) ||| 16777216 * a
      = 16777216 * a + (65536 * b + (256 * c + d)) :=
    or_add_disjoint 24 (by norm_num) (by omega) a
  rw [o1, o2, o3]
  ring

/-- `bswap64` reverses the eight base-256 digits of a 64-bit value. -/
theorem bswap64_bytes {a b c d e f g h : Nat} (ha : a < 256) (hb : b < 256)
    (hc : c < 256) (hd : d < 256) (he : e < 256) (hf : f < 256)
    (hg : g < 256) (hh : h < 256) :
    bswap64 (a + 256 * b + 65536 * c + 16777216 * d + 4294967296 * e
        + 1099511627776 * f + 281474976710656 * g + 72057594037927936 * h)
      = h + 256 * g + 65536 * f + 16777216 * e + 4294967296 * d
        + 1099511627776 * c + 281474976710656 * b + 72057594037927936 * a := by
  unfold bswap64
  set x := a + 256 * b + 65536 * c + 16777216 * d + 4294967296 * e
      + 1099511627776 * f + 281474976710656 * g + 72057594037927936 * h with hx
  have t1 : x >>> 56 &&& 0xFF = h := by
    rw [Nat.shiftRight_eq_div_pow, and_byte_mask 1 0 (by norm_num) (by norm_num)]
    simp only [show (2 : Nat) ^ 56 = 72057594037927936 from by norm_num]
    omega
  have t2 : x >>> 40 &&& 0xFF00 = 256 * g := by
    rw [Nat.shiftRight_eq_div_pow, and_byte_mask 256 8 (by norm_num) (by norm_num)]
    simp only [show (2 : Nat) ^ 40 = 1099511627776 from by norm_num]
    omega
  have t3 : x >>> 24 &&& 0xFF0000 = 65536 * f := by
    rw [Nat.shiftRight_eq_div_pow, and_byte_mask 65536 16 (by norm_num) (by norm_num)]
    simp only [show (2 : Nat) ^ 24 = 16777216 from by norm_num]
    omega
  have t4 : x >>> 8 &&& 0xFF000000 = 16777216 * e := by
    rw [Nat.shiftRight_eq_div_pow, and_byte_mask 16777216 24 (by norm_num) (by norm_num)]
    simp only [show (2 : Nat) ^ 8 = 256 from by norm_num]
    omega
  have t5 : x <<< 8 % 2 ^ 64 &&& 0xFF00000000 = 4294967296 * d := by
    rw [Nat.shiftLeft_eq, and_byte_mask 4294967296 32 (by norm_num) (by norm_num)]
    simp only [show (2 : Nat) ^ 8 = 256 from by norm_num,
      show (2 : Nat) ^ 64 = 18446744073709551616 from by norm_num]
    omega
  have t6 : x <<< 24 % 2 ^ 64 &&& 0xFF0000000000 = 1099511627776 * c := by
    rw [Nat.shiftLeft_eq, and_byte_mask 1099511627776 40 (by norm_num) (by norm_num)]
    simp only [show (2 : Nat) ^ 24 = 16777216 from by norm_num,
      show (2 : Nat) ^ 64 = 18446744073709551616 from by norm_num]
    omega
  have t7 : x <<< 40 % 2 ^ 64 &&& 0xFF000000000000 = 281474976710656 * b := by
    rw [Nat.shiftLeft_eq, and_byte_mask 281474976710656 48 (by norm_num) (by norm_num)]
    simp only [show (2 : Nat) ^ 40 = 1099511627776 from by norm_num,
      show (2 : Nat) ^ 64 = 18446744073709551616 from by norm_num]
    omega
  have t8 : x <<< 56 % 2 ^ 64 &&& 0xFF00000000000000 = 72057594037927936 * a := by
    rw [Nat.shiftLeft_eq, and_byte_mask 72057594037927936 56 (by norm_num) (by norm_num)]
    simp only [show (2 : Nat) ^ 56 = 72057594037927936 from by norm_num,
      show (2 : Nat) ^ 64 = 18446744073709551616 from by norm_num]
    omega
  rw [t1, t2, t3, t4, t5, t6, t7, t8]
  have o1 : h ||| 256 * g = 256 * g + h := or_add_disjoint 8 (by norm_num) hh g
  have o2 : 256 * g + h ||| 65536 * f = 65536 * f + (256 * g + h) :=
    or_add_disjoint 16 (by norm_num) (by omega) f
  have o3 : 65536 * f + (256 * g + h) ||| 16777216 * e
      = 16777216 * e + (65536 * f + (256 * g + h)) :=
    or_add_disjoint 24 (by norm_num) (by omega) e
  have o4 : 16777216 * e + (65536 * f + (256 * g + h)) ||| 4294967296 * d
      = 4294967296 * d + (16777216 * e + (65536 * f + (256 * g + h))) :=
    or_add_disjoint 32 (by norm_num) (by omega) d
  have o5 : 4294967296 * d + (16777216 * e + (65536 * f + (256 * g + h)))
        ||| 1099511627776 * c
      = 1099511627776 * c
        + (4294967296 * d + (16777216 * e + (65536 * f + (256 * g + h)))) :=
    or_add_disjoint 40 (by norm_num) (by omega) c
  have o6 : 1099511627776 * c
        + (4294967296 * d + (16777216 * e + (65536 * f + (256 * g + h))))
        ||| 281474976710656 * b
      = 281474976710656 * b
        + (1099511627776 * c
          + (4294967296 * d + (16777216 * e + (65536 * f + (256 * g + h))))) :=
    or_add_disjoint 48 (by norm_num) (by omega) b
  have o7 : 281474976710656 * b
        + (1099511627776 * c
          + (4294967296 * d + (16777216 * e + (65536 * f + (256 * g + h)))))
        ||| 72057594037927936 * a
      = 72057594037927936 * a
        + (281474976710656 * b
          + (1099511627776 * c
            + (4294967296 * d + (16777216 * e + (65536 * f + (256 * g + h)))))) :=
    or_add_disjoint 56 (by norm_num) (by omega) a
  rw [o1, o2, o3, o4, o5, o6, o7]
  ring

theorem swapStep_length (n : Nat) (d : List Nat) (i : Nat) :
    (swapStep n d i).length = d.length := by
  simp [swapStep]

theorem getD_append_left {m r : List Nat} {j : Nat} (hj : j < m.length) :
    (m ++ r).getD j 0 = m.getD j 0 := by
  simp [List.getD_eq_getElem?_getD, List.getElem?_append_left hj]

theorem getD_last (m : List Nat) (y : Nat) :
    (m ++ [y]).getD m.length 0 = y := by
  simp [List.getD_eq_getElem?_getD, List.getElem?_append_right (Nat.le_refl _)]

/-- A swap of the loop acting strictly inside the two end elements restricts
to a swap on the middle segment. -/
theorem swapStep_cons_append (x y : Nat) (m : List Nat) (i : Nat)
    (hi : i < m.length) :
    swapStep (m.length + 2) (x :: (m ++ [y])) (i + 1)
      = x :: (swapStep m.length m i ++ [y]) := by
  unfold swapStep
  have e1 : m.length + 2 - 1 - (i + 1) = (m.length - 1 - i) + 1 := by omega
  rw [e1]
  have hlt : m.length - 1 - i < m.length := by omega
  simp only [List.getD_cons_succ, List.set_cons_succ]
  rw [getD_append_left hlt, getD_append_left hi]
  rw [List.set_append_left _ _ hi]
  rw [List.set_append_left _ _ (by simp only [List.length_set]; omega)]

/-- The inner iterations of the reversal loop act on the middle segment with
all indices shifted by one. -/
theorem foldl_swapStep_shift :
    ∀ (k j : Nat) (m : List Nat) (x y : Nat), j + k ≤ m.length →
      (List.range' (j + 1) k).foldl (swapStep (m.length + 2)) (x :: (m ++ [y]))
        = x :: ((List.range' j k).foldl (swapStep m.length) m ++ [y]) := by
  intro k
  induction k with
  | zero =>
    intro j m x y _
    rfl
  | succ k ih =>
    intro j m x y hjk
    rw [List.range'_succ, List.range'_succ]
    simp only [List.foldl_cons]
    rw [swapStep_cons_append x y m j (by omega)]
    have hml : (swapStep m.length m j).length = m.length := swapStep_length _ _ _
    have hstep := ih (j + 1) (swapStep m.length m j) x y (by rw [hml]; omega)
    rw [hml] at hstep
    exact hstep

/-- The first iteration of the reversal loop swaps the two end elements. -/
theorem swapStep_zero (x y : Nat) (m : List Nat) :
    swapStep (m.length + 2) (x :: (m ++ [y])) 0 = y :: (m ++ [x]) := by
  unfold swapStep
  have e1 : m.length + 2 - 1 - 0 = m.length + 1 := by omega
  rw [e1]
  simp only [List.getD_cons_succ, List.getD_cons_zero, List.set_cons_zero,
    List.set_cons_succ]
  rw [getD_last]
  rw [List.set_append_right _ _ (Nat.le_refl _)]
  simp

/-- The swap loop of `reverse_bytes` computes list reversal. -/
theorem reverse_bytes_eq_reverse (l : List Nat) : reverse_bytes l = l.reverse := by
  induction l using List.bidirectionalRec with
  | nil => rfl
  | singleton a => simp [reverse_bytes]
  | cons_append x m y ih =>
    unfold reverse_bytes
    have hlen : (x :: (m ++ [y])).length = m.length + 2 := by simp
    rw [hlen]
    have hdiv : (m.length + 2) / 2 = m.length / 2 + 1 := by omega
    rw [hdiv, List.range_eq_range', List.range'_succ]
    simp only [List.foldl_cons]
    rw [swapStep_zero x y m]
    rw [foldl_swapStep_shift (m.length / 2) 0 m y x (by omega)]
    rw [← List.range_eq_range']
    rw [show (List.range (m.length / 2)).foldl (swapStep m.length) m
        = reverse_bytes m from rfl]
    rw [ih]
    simp

theorem length_eq_four {l : List Nat} (h : l.length = 4) :
    ∃ a b c d, l = [a, b, c, d] := by
  rcases l with _ | ⟨a, _ | ⟨b, _ | ⟨c, _ | ⟨d, _ | ⟨e, t⟩⟩⟩⟩⟩ <;> simp at h
  exact ⟨a, b, c, d, rfl⟩

theorem length_eq_eight {l : List Nat} (h : l.length = 8) :
    ∃ a b c d e f g hh, l = [a, b, c, d, e, f, g, hh] := by
  rcases l with _ | ⟨a, _ | ⟨b, _ | ⟨c, _ | ⟨d, _ | ⟨e, _ | ⟨f, _ | ⟨g, _ |
    ⟨hh, _ | ⟨i, t⟩⟩⟩⟩⟩⟩⟩⟩⟩ <;> simp at h
  exact ⟨a, b, c, d, e, f, g, hh, rfl⟩

/-- For byte lists (entries `< 256`), `convert_endian` reverses the bytes,
whatever the host order and element size. -/
theorem convert_endian_eq_reverse (host : Endian) (elem : List Nat)
    (hel : ∀ b ∈ elem, b < 256) :
    convert_endian host elem = elem.reverse := by
  unfold convert_endian
  split
  next h2 =>
    obtain ⟨a, b, rfl⟩ := List.length_eq_two.mp h2
    have ha : a < 256 := hel a (by simp)
    have hb : b < 256 := hel b (by simp)
    cases host with
    | little =>
      have hl : loadNat Endian.little [a, b] = a + 256 * b := by
        simp [loadNat, bytesToNatLE]
      rw [hl, bswap16_bytes ha hb]
      clear hl
      show natToBytesLE 2 (b + 256 * a) = [b, a]
      simp only [natToBytesLE, List.cons.injEq, and_true]
      omega
    | big =>
      have hl : loadNat Endian.big [a, b] = b + 256 * a := by
        simp [loadNat, bytesToNatLE]
      rw [hl, bswap16_bytes hb ha]
      clear hl
      show (natToBytesLE 2 (a + 256 * b)).reverse = [b, a]
      have : natToBytesLE 2 (a + 256 * b) = [a, b] := by
        simp only [natToBytesLE, List.cons.injEq, and_true]
        omega
      rw [this]
      rfl
  next h4 =>
    obtain ⟨a, b, c, d, rfl⟩ := length_eq_four h4
    have ha : a < 256 := hel a (by simp)
    have hb : b < 256 := hel b (by simp)
    have hc : c < 256 := hel c (by simp)
    have hd : d < 256 := hel d (by simp)
    cases host with
    | little =>
      have hl : loadNat Endian.little [a, b, c, d]
          = a + 256 * b + 65536 * c + 16777216 * d := by
        simp [loadNat, bytesToNatLE]
        ring
      rw [hl, bswap32_bytes ha hb hc hd]
      clear hl
      show natToBytesLE 4 (d + 256 * c + 65536 * b + 16777216 * a) = [d, c, b, a]
      simp only [natToBytesLE, List.cons.injEq, and_true]
      omega
    | big =>
      have hl : loadNat Endian.big [a, b, c, d]
          = d + 256 * c + 65536 * b + 16777216 * a := by
        simp [loadNat, bytesToNatLE]
        ring
      rw [hl, bswap32_bytes hd hc hb ha]
      clear hl
      show (natToBytesLE 4 (a + 256 * b + 65536 * c + 16777216 * d)).reverse
          = [d, c, b, a]
      have : natToBytesLE 4 (a + 256 * b + 65536 * c + 16777216 * d)
          = [a, b, c, d] := by
        simp only [natToBytesLE, List.cons.injEq, and_true]
        omega
      rw [this]
      rfl
  next h8 =>
    obtain ⟨a, b, c, d, e, f, g, hh, rfl⟩ := length_eq_eight h8
    have ha : a < 256 := hel a (by simp)
    have hb : b < 256 := hel b (by simp)
    have hc : c < 256 := hel c (by simp)
    have hd : d < 256 := hel d (by simp)
    have he : e < 256 := hel e (by simp)
    have hf : f < 256 := hel f (by simp)
    have hg : g < 256 := hel g (by simp)
    have hx : hh < 256 := hel hh (by simp)
    cases host with
    | little =>
      have hl : loadNat Endian.little [a, b, c, d, e, f, g, hh]
          = a + 256 * b + 65536 * c + 16777216 * d + 4294967296 * e
            + 1099511627776 * f + 281474976710656 * g
            + 72057594037927936 * hh := by
        simp [loadNat, bytesToNatLE]
        ring
      rw [hl, bswap64_bytes ha hb hc hd he hf hg hx]
      clear hl
      show natToBytesLE 8 (hh + 256 * g + 65536 * f + 16777216 * e
          + 4294967296 * d + 1099511627776 * c + 281474976710656 * b
          + 72057594037927936 * a) = [hh, g, f, e, d, c, b, a]
      simp only [natToBytesLE, List.cons.injEq, and_true]
      omega
    | big =>
      have hl : loadNat Endian.big [a, b, c, d, e, f, g, hh]
          = hh + 256 * g + 65536 * f + 16777216 * e + 4294967296 * d
            + 1099511627776 * c + 281474976710656 * b
            + 72057594037927936 * a := by
        simp [loadNat, bytesToNatLE]
        ring
      rw [hl, bswap64_bytes hx hg hf he hd hc hb ha]
      clear hl
      show (natToBytesLE 8 (a + 256 * b + 65536 * c + 16777216 * d
          + 4294967296 * e + 1099511627776 * f + 281474976710656 * g
          + 72057594037927936 * hh)).reverse = [hh, g, f, e, d, c, b, a]
      have : natToBytesLE 8 (a + 256 * b + 65536 * c + 16777216 * d
          + 4294967296 * e + 1099511627776 * f + 281474976710656 * g
          + 72057594037927936 * hh) = [a, b, c, d, e, f, g, hh] := by
        simp only [natToBytesLE, List.cons.injEq, and_true]
        omega
      rw [this]
      rfl
  next =>
    exact reverse_bytes_eq_reverse elem

theorem writeSlice_length {l xs : List Nat} {p : Nat} (h : p + xs.length ≤ l.length) :
    (writeSlice l p xs).length = l.length := by
  simp [writeSlice]
  omega

theorem writeSlice_take {l xs : List Nat} {p m : Nat} (hm : m ≤ p) (hp : p ≤ l.length) :
    (writeSlice l p xs).take m = l.take m := by
  unfold writeSlice
  rw [List.take_append_eq_append_take, List.take_take]
  have h0 : m - (l.take p).length = 0 := by simp; omega
  rw [h0]
  simp
  omega

theorem writeSlice_extract {l xs : List Nat} {p : Nat} (h : p + xs.length ≤ l.length) :
    ((writeSlice l p xs).drop p).take xs.length = xs := by
  unfold writeSlice
  rw [List.drop_left' (by simp; omega), List.take_left' rfl]

theorem writeSlice_drop {l xs : List Nat} {p : Nat} (h : p ≤ l.length) :
    (writeSlice l p xs).drop (p + xs.length) = l.drop (p + xs.length) := by
  unfold writeSlice
  rw [List.drop_append_eq_append_drop, List.drop_append_eq_append_drop]
  have hA : (l.take p).length = p := by simp; omega
  rw [hA]
  rw [List.drop_of_length_le (by simp)]
  have e1 : p + xs.length - p = xs.length := by omega
  rw [e1, List.drop_of_length_le (Nat.le_refl _)]
  simp [List.drop_drop]

theorem writeSlice_writeSlice {l xs ys : List Nat} {p : Nat}
    (h : p + xs.length ≤ l.length) :
    writeSlice (writeSlice l p xs) (p + xs.length) ys = writeSlice l p (xs ++ ys) := by
  have htake : (writeSlice l p xs).take (p + xs.length) = l.take p ++ xs := by
    unfold writeSlice
    rw [List.take_append_eq_append_take, List.take_of_length_le (by simp)]
    have hA : (l.take p).length = p := by simp; omega
    rw [hA]
    have e1 : p + xs.length - p = xs.length := by omega
    rw [e1, List.take_left' rfl]
  have hdrop : (writeSlice l p xs).drop (p + xs.length + ys.length)
      = l.drop (p + xs.length + ys.length) := by
    have := @writeSlice_drop l xs p (by omega)
    calc (writeSlice l p xs).drop (p + xs.length + ys.length)
        = ((writeSlice l p xs).drop (p + xs.length)).drop ys.length := by
          rw [List.drop_drop]
      _ = (l.drop (p + xs.length)).drop ys.length := by rw [this]
      _ = l.drop (p + xs.length + ys.length) := by rw [List.drop_drop]
  show (writeSlice l p xs).take (p + xs.length)
      ++ (ys ++ (writeSlice l p xs).drop (p + xs.length + ys.length)) = _
  rw [htake, hdrop]
  unfold writeSlice
  simp [List.append_assoc]
  congr 1
  omega

theorem writeSlice_overwrite {l xs ys : List Nat} {p : Nat}
    (h : p + xs.length ≤ l.length) (hlen : ys.length = xs.length) :
    writeSlice (writeSlice l p xs) p ys = writeSlice l p ys := by
  have htake : (writeSlice l p xs).take p = l.take p :=
    writeSlice_take (Nat.le_refl p) (by omega)
  have hdrop : (writeSlice l p xs).drop (p + ys.length)
      = l.drop (p + ys.length) := by
    rw [hlen]
    exact writeSlice_drop (by omega)
  show (writeSlice l p xs).take p
      ++ (ys ++ (writeSlice l p xs).drop (p + ys.length)) = _
  rw [htake, hdrop]
  rfl

theorem writeSlice_all {l xs : List Nat} (h : l.length ≤ xs.length) :
    writeSlice l 0 xs = xs := by
  simp [writeSlice, List.drop_of_length_le h]

theorem element_length {data : List Nat} {size j : Nat}
    (h : (j + 1) * size ≤ data.length) :
    (element data size j).length = size := by
  have h2 : j * size + size ≤ data.length := by
    calc j * size + size = (j + 1) * size := by ring
    _ ≤ data.length := h
  simp [element]
  omega

theorem element_succ (data : List Nat) (size j : Nat) :
    element data size (j + 1) = element (data.drop size) size j := by
  simp [element, List.drop_drop]
  congr 2
  ring

theorem natToBytesLE_length (n x : Nat) : (natToBytesLE n x).length = n := by
  induction n generalizing x with
  | zero => rfl
  | succ n ih => simp [natToBytesLE, ih]

theorem storeNat_length (host : Endian) (n x : Nat) :
    (storeNat host n x).length = n := by
  cases host <;> simp [storeNat, natToBytesLE_length]

theorem reverse_bytes_length (l : List Nat) : (reverse_bytes l).length = l.length := by
  rw [reverse_bytes_eq_reverse]
  simp

theorem convert_endian_length (host : Endian) (e : List Nat) :
    (convert_endian host e).length = e.length := by
  unfold convert_endian
  split
  next h2 => rw [storeNat_length, h2]
  next h4 => rw [storeNat_length, h4]
  next h8 => rw [storeNat_length, h8]
  next => exact reverse_bytes_length e

theorem convert_endian_mem {host : Endian} {e : List Nat}
    (he : ∀ b ∈ e, b < 256) : ∀ b ∈ convert_endian host e, b < 256 := by
  rw [convert_endian_eq_reverse host e he]
  intro b hb
  exact he b (List.mem_reverse.mp hb)

theorem convert_endian_involutive (host : Endian) (e : List Nat)
    (he : ∀ b ∈ e, b < 256) :
    convert_endian host (convert_endian host e) = e := by
  rw [convert_endian_eq_reverse host e he,
    convert_endian_eq_reverse host e.reverse (fun b hb => he b (List.mem_reverse.mp hb)),
    List.reverse_reverse]

theorem convertedSlice_zero (host : Endian) (data : List Nat) (size offset : Nat) :
    convertedSlice host data size offset 0 = [] := rfl

theorem convertedSlice_succ (host : Endian) (data : List Nat) (size offset batch : Nat) :
    convertedSlice host data size offset (batch + 1)
      = convertedSlice host data size offset batch
        ++ convert_endian host (element data size (offset + batch)) := by
  simp [convertedSlice, List.range_succ]

theorem convertedSlice_cons (host : Endian) (data : List Nat) (size offset batch : Nat) :
    convertedSlice host data size offset (batch + 1)
      = convert_endian host (element data size offset)
        ++ convertedSlice host data size (offset + 1) batch := by
  simp only [convertedSlice, List.range_succ_eq_map, List.map_cons, List.flatten_cons,
    List.map_map]
  congr 2
  apply List.map_congr_left
  intro i _
  simp only [Function.comp]
  have e1 : offset + Nat.succ i = offset + 1 + i := by omega
  rw [e1]

theorem convertedSlice_length {host : Endian} {data : List Nat} {size : Nat} :
    ∀ batch offset, (offset + batch) * size ≤ data.length →
      (convertedSlice host data size offset batch).length = batch * size := by
  intro batch
  induction batch with
  | zero => intro offset _; simp [convertedSlice_zero]
  | succ batch ih =>
    intro offset hlen
    rw [convertedSlice_succ]
    have hle : (offset + batch + 1) * size ≤ data.length := by
      calc (offset + batch + 1) * size = (offset + (batch + 1)) * size := by ring
      _ ≤ data.length := hlen
    have h1 : (offset + batch) * size ≤ data.length := by
      have : (offset + batch) * size ≤ (offset + batch + 1) * size :=
        Nat.mul_le_mul_right _ (by omega)
      omega
    rw [List.length_append, ih offset h1, convert_endian_length,
      element_length hle]
    ring

theorem convertedSlice_add (host : Endian) (data : List Nat) (size : Nat) :
    ∀ b2 b1 offset, convertedSlice host data size offset (b1 + b2)
      = convertedSlice host data size offset b1
        ++ convertedSlice host data size (offset + b1) b2 := by
  intro b2
  induction b2 with
  | zero => intro b1 offset; simp [convertedSlice_zero]
  | succ b2 ih =>
    intro b1 offset
    have e1 : b1 + (b2 + 1) = (b1 + b2) + 1 := by omega
    have e2 : offset + (b1 + b2) = offset + b1 + b2 := by omega
    rw [e1, convertedSlice_succ, ih, convertedSlice_succ, List.append_assoc, e2]

theorem fillStep_data (host : Endian) (size offset : Nat) (st : WState) (i : Nat) :
    (fillStep host size offset st i).data = st.data := rfl

theorem fillStep_cap (host : Endian) (size offset : Nat) (st : WState) (i : Nat) :
    (fillStep host size offset st i).cap = st.cap := rfl

theorem fillStep_calls (host : Endian) (size offset : Nat) (st : WState) (i : Nat) :
    (fillStep host size offset st i).calls = st.calls := rfl

theorem fillStep_buffer_length {host : Endian} {size offset : Nat} {st : WState}
    {i : Nat} (h : i * size + size ≤ st.buffer.length) :
    (fillStep host size offset st i).buffer.length = st.buffer.length := by
  have e1 : (element st.data size (offset + i)).length ≤ size := by
    unfold element
    simp only [List.length_take, List.length_drop]
    omega
  have l1 : (writeSlice st.buffer (i * size) (element st.data size (offset + i))).length
      = st.buffer.length := writeSlice_length (by omega)
  show (writeSlice (writeSlice st.buffer (i * size) (element st.data size (offset + i)))
      (i * size)
      (convert_endian host
        (((writeSlice st.buffer (i * size) (element st.data size (offset + i))).drop
          (i * size)).take size))).length = st.buffer.length
  have e2 : (convert_endian host
      (((writeSlice st.buffer (i * size) (element st.data size (offset + i))).drop
        (i * size)).take size)).length ≤ size := by
    rw [convert_endian_length]
    simp only [List.length_take, List.length_drop]
    omega
  rw [writeSlice_length (by rw [l1]; omega)]
  exact l1

theorem fillStep_buffer_take {host : Endian} {size offset : Nat} {st : WState}
    {i m : Nat} (hm : m ≤ i * size) (h : i * size + size ≤ st.buffer.length) :
    (fillStep host size offset st i).buffer.take m = st.buffer.take m := by
  have e1 : (element st.data size (offset + i)).length ≤ size := by
    unfold element
    simp only [List.length_take, List.length_drop]
    omega
  have l1 : (writeSlice st.buffer (i * size) (element st.data size (offset + i))).length
      = st.buffer.length := writeSlice_length (by omega)
  show (writeSlice (writeSlice st.buffer (i * size) (element st.data size (offset + i)))
      (i * size)
      (convert_endian host
        (((writeSlice st.buffer (i * size) (element st.data size (offset + i))).drop
          (i * size)).take size))).take m = st.buffer.take m
  rw [writeSlice_take hm (by rw [l1]; omega), writeSlice_take hm (by omega)]

theorem fillStep_buffer_slice {host : Endian} {size offset : Nat} {st : WState}
    {i : Nat} (h : i * size + size ≤ st.buffer.length)
    (hel : (element st.data size (offset + i)).length = size) :
    ((fillStep host size offset st i).buffer.drop (i * size)).take size
      = convert_endian host (element st.data size (offset + i)) := by
  have l1 : (writeSlice st.buffer (i * size) (element st.data size (offset + i))).length
      = st.buffer.length := writeSlice_length (by omega)
  have hx : ((writeSlice st.buffer (i * size) (element st.data size (offset + i))).drop
      (i * size)).take size = element st.data size (offset + i) := by
    have hh := @writeSlice_extract st.buffer (element st.data size (offset + i))
      (i * size) (by omega)
    rw [hel] at hh
    exact hh
  show ((writeSlice (writeSlice st.buffer (i * size) (element st.data size (offset + i)))
      (i * size)
      (convert_endian host
        (((writeSlice st.buffer (i * size) (element st.data size (offset + i))).drop
          (i * size)).take size))).drop (i * size)).take size
      = convert_endian host (element st.data size (offset + i))
  rw [hx]
  have hc : (convert_endian host (element st.data size (offset + i))).length = size := by
    rw [convert_endian_length, hel]
  have hh := @writeSlice_extract
    (writeSlice st.buffer (i * size) (element st.data size (offset + i)))
    (convert_endian host (element st.data size (offset + i)))
    (i * size) (by rw [hc, l1]; omega)
  rw [hc] at hh
  exact hh

/-- A fold of `fillStep` touches only the scratch buffer. -/
theorem foldl_fillStep_fields (host : Endian) (size offset : Nat) :
    ∀ (js : List Nat) (s : WState),
      (js.foldl (fillStep host size offset) s).data = s.data ∧
      (js.foldl (fillStep host size offset) s).cap = s.cap ∧
      (js.foldl (fillStep host size offset) s).calls = s.calls := by
  intro js
  induction js with
  | nil => intro s; exact ⟨rfl, rfl, rfl⟩
  | cons j js ih =>
    intro s
    simp only [List.foldl_cons]
    exact ih (fillStep host size offset s j)

theorem fillBuffer_data (host : Endian) (size offset batch : Nat) (s : WState) :
    (fillBuffer host size offset batch s).data = s.data :=
  (foldl_fillStep_fields host size offset (List.range batch) s).1

theorem fillBuffer_cap (host : Endian) (size offset batch : Nat) (s : WState) :
    (fillBuffer host size offset batch s).cap = s.cap :=
  (foldl_fillStep_fields host size offset (List.range batch) s).2.1

theorem fillBuffer_calls (host : Endian) (size offset batch : Nat) (s : WState) :
    (fillBuffer host size offset batch s).calls = s.calls :=
  (foldl_fillStep_fields host size offset (List.range batch) s).2.2

/-- After one batch of the copy-and-swap loop, the first `batch * size` bytes
of the scratch buffer are the byte-swapped elements of the batch. -/
theorem fillBuffer_spec (host : Endian) (size offset : Nat) (s : WState) :
    ∀ batch, (offset + batch) * size ≤ s.data.length →
      batch * size ≤ s.buffer.length →
      (fillBuffer host size offset batch s).buffer.length = s.buffer.length ∧
      (fillBuffer host size offset batch s).buffer.take (batch * size)
        = convertedSlice host s.data size offset batch := by
  intro batch
  induction batch with
  | zero =>
    intro _ _
    exact ⟨rfl, by simp [convertedSlice_zero]⟩
  | succ batch ih =>
    intro hd hb
    have hmono1 : (offset + batch) * size ≤ (offset + (batch + 1)) * size :=
      Nat.mul_le_mul_right _ (by omega)
    have hmono2 : batch * size ≤ (batch + 1) * size :=
      Nat.mul_le_mul_right _ (by omega)
    have ihs := ih (by omega) (by omega)
    have hstep : fillBuffer host size offset (batch + 1) s
        = fillStep host size offset (fillBuffer host size offset batch s) batch := by
      unfold fillBuffer
      rw [List.range_succ, List.foldl_append]
      rfl
    have hdataB : (fillBuffer host size offset batch s).data = s.data :=
      fillBuffer_data host size offset batch s
    have hsucc : (batch + 1) * size = batch * size + size := by ring
    have hbl : batch * size + size ≤ (fillBuffer host size offset batch s).buffer.length := by
      rw [ihs.1]
      omega
    have hel : (element (fillBuffer host size offset batch s).data size
        (offset + batch)).length = size := by
      rw [hdataB]
      apply element_length
      calc (offset + batch + 1) * size = (offset + (batch + 1)) * size := by ring
      _ ≤ s.data.length := hd
    constructor
    · rw [hstep, fillStep_buffer_length hbl, ihs.1]
    · rw [hstep, hsucc, List.take_add]
      rw [fillStep_buffer_take (Nat.le_refl _) hbl, ihs.2]
      rw [fillStep_buffer_slice hbl hel, hdataB]
      rw [convertedSlice_succ]

/-- When `blockElems = 0` (element larger than the scratch buffer) the
batching loop makes no progress: every iteration processes a zero-element
batch, so any amount of fuel ends in `spin` at the same offset. -/
theorem writeLoop_stuck (host : Endian) (num size : Nat) :
    ∀ fuel offset s, offset < num →
      (writeLoop host num size 0 fuel offset s).1 = WStatus.spin offset := by
  intro fuel
  induction fuel with
  | zero =>
    intro offset s h
    rfl
  | succ fuel ih =>
    intro offset s h
    rw [writeLoop, if_pos h]
    simp only [Nat.not_lt_zero, if_false, fwriteCount, Nat.zero_min, Nat.min_zero,
      ne_eq, not_true_eq_false, Nat.add_zero, Nat.mul_zero, Nat.zero_mul]
    exact ih offset _ h

/-- The batching loop never writes to the caller buffer: the `data` field of
the state is invariant on every path (success, error, or fuel exhaustion). -/
theorem writeLoop_data (host : Endian) (num size blockElems : Nat) :
    ∀ fuel offset s,
      ((writeLoop host num size blockElems fuel offset s).2).data = s.data := by
  intro fuel
  induction fuel with
  | zero =>
    intro offset s
    rfl
  | succ fuel ih =>
    intro offset s
    rw [writeLoop]
    by_cases h : offset < num
    · rw [if_pos h]
      by_cases ht : fwriteCount (fillBuffer host size offset
            (if num - offset < blockElems then num - offset else blockElems) s).cap size
            (if num - offset < blockElems then num - offset else blockElems)
          ≠ (if num - offset < blockElems then num - offset else blockElems)
      · rw [if_pos ht]
        exact fillBuffer_data host size offset _ s
      · rw [if_neg ht]
        rw [ih]
        exact fillBuffer_data host size offset _ s
    · rw [if_neg h]

/-- Characterization of a successful run of the batching loop: the caller
buffer is untouched, the `fwrite` payloads append the byte-swapped elements
from `offset` to `num` in order, and their sizes follow the spec batch
formula. -/
theorem writeLoop_ok_spec (host : Endian) (num size blockElems : Nat)
    (hbs : blockElems * size ≤ 256) :
    ∀ fuel offset s s', writeLoop host num size blockElems fuel offset s = (WStatus.ok, s') →
      s.data.length = num * size → s.buffer.length = 256 → offset ≤ num →
      s'.data = s.data ∧
      s'.calls.flatten = s.calls.flatten
        ++ convertedSlice host s.data size offset (num - offset) ∧
      s'.calls.map List.length = s.calls.map List.length
        ++ (specBatches fuel (num - offset) blockElems).map (· * size) := by
  intro fuel
  induction fuel with
  | zero =>
    intro offset s s' heq
    rw [writeLoop] at heq
    exact absurd (congrArg Prod.fst heq) (by simp)
  | succ fuel ih =>
    intro offset s s' heq hdata hbuf hoff
    by_cases h : offset < num
    · rw [writeLoop, if_pos h] at heq
      set b := if num - offset < blockElems then num - offset else blockElems with hbdef
      have hb1 : b ≤ num - offset := by rw [hbdef]; split <;> omega
      have hb2 : b ≤ blockElems := by rw [hbdef]; split <;> omega
      have hbmin : b = min (num - offset) blockElems := by rw [hbdef]; split <;> omega
      have hbsize : b * size ≤ 256 := by
        calc b * size ≤ blockElems * size := Nat.mul_le_mul_right _ hb2
        _ ≤ 256 := hbs
      have hdlen : (offset + b) * size ≤ s.data.length := by
        rw [hdata]
        exact Nat.mul_le_mul_right _ (by omega)
      have hfb := fillBuffer_spec host size offset s b hdlen (by rw [hbuf]; exact hbsize)
      have hfbdata := fillBuffer_data host size offset b s
      have hfbcap := fillBuffer_cap host size offset b s
      have hfbcalls := fillBuffer_calls host size offset b s
      by_cases ht : fwriteCount (fillBuffer host size offset b s).cap size b ≠ b
      · rw [if_pos ht] at heq
        exact absurd (congrArg Prod.fst heq) (by simp)
      · rw [if_neg ht] at heq
        have hpay : (fillBuffer host size offset b s).buffer.take (b * size)
            = convertedSlice host s.data size offset b := hfb.2
        have hreck := ih (offset + b) _ s' heq
          (by rw [hfbdata]; exact hdata) (by rw [hfb.1]; exact hbuf) (by omega)
        refine ⟨?_, ?_, ?_⟩
        · rw [hreck.1, hfbdata]
        · rw [hreck.2.1]
          simp only [hfbcalls, hfbdata, hpay, List.flatten_append, List.flatten_cons,
            List.flatten_nil, List.append_nil, List.append_assoc]
          congr 1
          have hsplit : num - offset = b + (num - (offset + b)) := by omega
          rw [hsplit, convertedSlice_add]
        · rw [hreck.2.2]
          have hlenpay : (convertedSlice host s.data size offset b).length = b * size :=
            convertedSlice_length b offset hdlen
          simp only [hfbcalls, hfbdata, hpay, List.map_append, List.map_cons,
            List.map_nil, List.append_assoc, List.singleton_append]
          rw [hlenpay]
          rw [specBatches, if_neg (by omega)]
          simp only [List.map_cons]
          rw [← hbmin]
          have e3 : num - (offset + b) = num - offset - b := by omega
          rw [e3]
    · rw [writeLoop, if_neg h] at heq
      have hs : s = s' := ((Prod.mk.injEq _ _ _ _).mp heq).2
      subst hs
      have hno : num - offset = 0 := by omega
      rw [hno]
      refine ⟨rfl, by simp [convertedSlice_zero], ?_⟩
      rw [specBatches, if_pos rfl]
      simp

/-- With a positive batch size, enough capacity and `num - offset + 1` units
of fuel, the batching loop reaches a successful exit. -/
theorem writeLoop_terminates (host : Endian) (num size blockElems : Nat)
    (hsize : 0 < size) (hbe : 0 < blockElems) (hbs : blockElems * size ≤ 256) :
    ∀ fuel offset s, s.data.length = num * size → s.buffer.length = 256 →
      offset ≤ num → num - offset < fuel → (num - offset) * size ≤ s.cap →
      (writeLoop host num size blockElems fuel offset s).1 = WStatus.ok := by
  intro fuel
  induction fuel with
  | zero =>
    intro offset s _ _ _ hf _
    omega
  | succ fuel ih =>
    intro offset s hdata hbuf hoff hf hcap
    by_cases h : offset < num
    · rw [writeLoop, if_pos h]
      set b := if num - offset < blockElems then num - offset else blockElems with hbdef
      have hb0 : 0 < b := by rw [hbdef]; split <;> omega
      have hb1 : b ≤ num - offset := by rw [hbdef]; split <;> omega
      have hb2 : b ≤ blockElems := by rw [hbdef]; split <;> omega
      have hbsize : b * size ≤ 256 := by
        calc b * size ≤ blockElems * size := Nat.mul_le_mul_right _ hb2
        _ ≤ 256 := hbs
      have hdlen : (offset + b) * size ≤ s.data.length := by
        rw [hdata]
        exact Nat.mul_le_mul_right _ (by omega)
      have hfb := fillBuffer_spec host size offset s b hdlen (by rw [hbuf]; exact hbsize)
      have hfbdata := fillBuffer_data host size offset b s
      have hfbcap := fillBuffer_cap host size offset b s
      have hsplitcap : (num - offset) * size = (num - (offset + b)) * size + b * size := by
        rw [← Nat.add_mul]
        congr 1
        omega
      have hcap2 : b * size ≤ (fillBuffer host size offset b s).cap := by
        rw [hfbcap]
        omega
      have ht : fwriteCount (fillBuffer host size offset b s).cap size b = b := by
        unfold fwriteCount
        have : b ≤ (fillBuffer host size offset b s).cap / size :=
          (Nat.le_div_iff_mul_le hsize).mpr hcap2
        omega
      rw [if_neg (by omega)]
      apply ih (offset + b)
      · rw [hfbdata]
        exact hdata
      · rw [hfb.1]
        exact hbuf
      · omega
      · omega
      · show (num - (offset + b)) * size ≤ (fillBuffer host size offset b s).cap - b * size
        rw [hfbcap]
        omega
    · rw [writeLoop, if_neg h]

/-- A run of the read loop over a stream holding at least `n` elements
succeeds, deposits the (possibly swapped) chunks at consecutive offsets, and
consumes exactly `n * size` bytes. -/
theorem readLoop_ok_spec (host : Endian) (swap : Bool) (size : Nat) (hsize : 0 < size) :
    ∀ n i s, (i + n) * size ≤ s.data.length → n * size ≤ s.stream.length →
      readLoop host swap size n i s
        = (true, ⟨writeSlice s.data (i * size) (readBytes host swap size n s.stream),
            s.stream.drop (n * size)⟩) := by
  intro n
  induction n with
  | zero =>
    intro i s _ _
    show (true, s) = _
    simp [readBytes, writeSlice]
  | succ n ih =>
    intro i s hdata hstream
    have hchunk : (s.stream.take size).length = size := by
      simp only [List.length_take]
      have : size ≤ (n + 1) * size := by
        calc size = 1 * size := by ring
        _ ≤ (n + 1) * size := Nat.mul_le_mul_right _ (by omega)
      omega
    have hielem : i * size + size ≤ s.data.length := by
      have : (i + 1) * size ≤ (i + (n + 1)) * size := Nat.mul_le_mul_right _ (by omega)
      have e : (i + 1) * size = i * size + size := by ring
      omega
    rw [readLoop, if_neg (by rw [hchunk]; exact fun hf => absurd rfl hf)]
    have hextract : ((writeSlice s.data (i * size) (s.stream.take size)).drop
        (i * size)).take size = s.stream.take size := by
      have hh := @writeSlice_extract s.data (s.stream.take size)
        (i * size) (by rw [hchunk]; omega)
      rw [hchunk] at hh
      exact hh
    have hcvtlen : ∀ c : List Nat, c.length = size →
        ((if swap then convert_endian host c else c) : List Nat).length = size := by
      intro c hc
      cases swap <;> simp [convert_endian_length, hc]
    have hdata3 : (if swap then
          (⟨writeSlice (writeSlice s.data (i * size) (s.stream.take size)) (i * size)
              (convert_endian host (((writeSlice s.data (i * size)
                (s.stream.take size)).drop (i * size)).take size)),
            s.stream.drop size⟩ : RState)
        else ⟨writeSlice s.data (i * size) (s.stream.take size), s.stream.drop size⟩)
        = (⟨writeSlice s.data (i * size)
            (if swap then convert_endian host (s.stream.take size) else s.stream.take size),
          s.stream.drop size⟩ : RState) := by
      cases swap with
      | false => simp
      | true =>
        simp only [if_pos]
        rw [hextract]
        congr 1
        apply writeSlice_overwrite (by rw [hchunk]; omega)
        rw [convert_endian_length, hchunk]
    rw [hdata3]
    have hwlen : (writeSlice s.data (i * size)
        (if swap then convert_endian host (s.stream.take size) else s.stream.take size)).length
        = s.data.length :=
      writeSlice_length (by rw [hcvtlen _ hchunk]; omega)
    have hrec := ih (i + 1)
      ⟨writeSlice s.data (i * size)
          (if swap then convert_endian host (s.stream.take size) else s.stream.take size),
        s.stream.drop size⟩
      (by
        show (i + 1 + n) * size ≤ (writeSlice s.data (i * size) _).length
        rw [hwlen]
        have e : (i + 1 + n) * size = (i + (n + 1)) * size := by ring
        omega)
      (by
        show n * size ≤ (s.stream.drop size).length
        simp only [List.length_drop]
        have e : (n + 1) * size = n * size + size := by ring
        omega)
    rw [hrec]
    have hcomb : writeSlice (writeSlice s.data (i * size)
          (if swap then convert_endian host (s.stream.take size) else s.stream.take size))
        ((i + 1) * size) (readBytes host swap size n (s.stream.drop size))
        = writeSlice s.data (i * size) (readBytes host swap size (n + 1) s.stream) := by
      have e : (i + 1) * size = i * size
          + (if swap then convert_endian host (s.stream.take size) else s.stream.take size).length := by
        rw [hcvtlen _ hchunk]
        ring
      rw [e, writeSlice_writeSlice (by rw [hcvtlen _ hchunk]; omega)]
      rfl
    rw [hcomb]
    have hdrop : (s.stream.drop size).drop (n * size) = s.stream.drop ((n + 1) * size) := by
      rw [List.drop_drop]
      congr 1
      ring
    rw [hdrop]

/-- A run of the read loop over a stream holding fewer than `n` elements
fails; the destination receives the `len / size` complete (possibly swapped)
elements followed by the remaining `len % size` raw bytes, and the stream is
exhausted. -/
theorem readLoop_short_spec (host : Endian) (swap : Bool) (size : Nat) (hsize : 0 < size) :
    ∀ n i s, s.stream.length < n * size → (i + n) * size ≤ s.data.length →
      readLoop host swap size n i s
        = (false, ⟨writeSlice s.data (i * size)
            (readBytes host swap size (s.stream.length / size) s.stream
              ++ s.stream.drop (s.stream.length / size * size)), []⟩) := by
  intro n
  induction n with
  | zero =>
    intro i s hshort _
    simp at hshort
  | succ n ih =>
    intro i s hshort hdata
    have hielem : i * size + size ≤ s.data.length := by
      have : (i + 1) * size ≤ (i + (n + 1)) * size := Nat.mul_le_mul_right _ (by omega)
      have e : (i + 1) * size = i * size + size := by ring
      omega
    by_cases hcase : s.stream.length < size
    · have hchunk : (s.stream.take size).length = s.stream.length := by
        simp only [List.length_take]
        omega
      have hk : s.stream.length / size = 0 := Nat.div_eq_of_lt hcase
      rw [readLoop, if_pos (by rw [hchunk]; omega)]
      have htk : s.stream.take size = s.stream := List.take_of_length_le (by omega)
      rw [hk]
      simp only [readBytes, Nat.zero_mul, List.drop_zero, List.nil_append, htk]
      rw [List.drop_of_length_le (by omega)]
    · have hchunk : (s.stream.take size).length = size := by
        simp only [List.length_take]
        omega
      rw [readLoop, if_neg (by rw [hchunk]; exact fun hf => absurd rfl hf)]
      have hextract : ((writeSlice s.data (i * size) (s.stream.take size)).drop
          (i * size)).take size = s.stream.take size := by
        have hh := @writeSlice_extract s.data (s.stream.take size)
          (i * size) (by rw [hchunk]; omega)
        rw [hchunk] at hh
        exact hh
      have hcvtlen : ∀ c : List Nat, c.length = size →
          ((if swap then convert_endian host c else c) : List Nat).length = size := by
        intro c hc
        cases swap <;> simp [convert_endian_length, hc]
      have hdata3 : (if swap then
            (⟨writeSlice (writeSlice s.data (i * size) (s.stream.take size)) (i * size)
                (convert_endian host (((writeSlice s.data (i * size)
                  (s.stream.take size)).drop (i * size)).take size)),
              s.stream.drop size⟩ : RState)
          else ⟨writeSlice s.data (i * size) (s.stream.take size), s.stream.drop size⟩)
          = (⟨writeSlice s.data (i * size)
              (if swap then convert_endian host (s.stream.take size) else s.stream.take size),
            s.stream.drop size⟩ : RState) := by
        cases swap with
        | false => simp
        | true =>
          simp only [if_pos]
          rw [hextract]
          congr 1
          apply writeSlice_overwrite (by rw [hchunk]; omega)
          rw [convert_endian_length, hchunk]
      rw [hdata3]
      have hwlen : (writeSlice s.data (i * size)
          (if swap then convert_endian host (s.stream.take size) else s.stream.take size)).length
          = s.data.length :=
        writeSlice_length (by rw [hcvtlen _ hchunk]; omega)
      have hrec := ih (i + 1)
        ⟨writeSlice s.data (i * size)
            (if swap then convert_endian host (s.stream.take size) else s.stream.take size),
          s.stream.drop size⟩
        (by
          show (s.stream.drop size).length < n * size
          simp only [List.length_drop]
          have e : (n + 1) * size = n * size + size := by ring
          omega)
        (by
          show (i + 1 + n) * size ≤ (writeSlice s.data (i * size) _).length
          rw [hwlen]
          have e : (i + 1 + n) * size = (i + (n + 1)) * size := by ring
          omega)
      rw [hrec]
      have hkpos : 1 ≤ s.stream.length / size := (Nat.one_le_div_iff hsize).mpr (by omega)
      obtain ⟨q1, hq1⟩ : ∃ q1, s.stream.length / size = q1 + 1 :=
        ⟨s.stream.length / size - 1, by omega⟩
      have hmod := Nat.div_add_mod s.stream.length size
      rw [hq1] at hmod
      have hrlt : s.stream.length % size < size := Nat.mod_lt _ hsize
      have hkdrop : (s.stream.drop size).length / size = q1 := by
        simp only [List.length_drop]
        have hdistrib : size * (q1 + 1) = size * q1 + size := by ring
        have e1 : s.stream.length - size = s.stream.length % size + size * q1 := by
          omega
        rw [e1, Nat.add_mul_div_left _ _ hsize, Nat.div_eq_of_lt hrlt]
        omega
      rw [hkdrop]
      have e2 : (i + 1) * size = i * size
          + (if swap then convert_endian host (s.stream.take size) else s.stream.take size).length := by
        rw [hcvtlen _ hchunk]
        ring
      rw [e2, writeSlice_writeSlice (by rw [hcvtlen _ hchunk]; omega)]
      rw [hq1]
      have e3 : (s.stream.drop size).drop (q1 * size) = s.stream.drop ((q1 + 1) * size) := by
        rw [List.drop_drop]
        congr 1
        ring
      rw [e3, readBytes, ← List.append_assoc]

theorem swap_needed_of_ne {host target : Endian} (h : host ≠ target) :
    swap_needed host target = true := by
  cases host <;> cases target <;> simp_all [swap_needed, is_little_endian]

theorem swap_needed_self (host : Endian) : swap_needed host host = false := by
  cases host <;> simp [swap_needed, is_little_endian]

theorem natToBytesLE_mem (n x : Nat) : ∀ b ∈ natToBytesLE n x, b < 256 := by
  induction n generalizing x with
  | zero =>
    intro b hb
    simp [natToBytesLE] at hb
  | succ n ih =>
    intro b hb
    simp only [natToBytesLE, List.mem_cons] at hb
    rcases hb with hb | hb
    · subst hb
      exact Nat.mod_lt _ (by omega)
    · exact ih (x / 256) b hb

theorem storeNat_mem (host : Endian) (n x : Nat) : ∀ b ∈ storeNat host n x, b < 256 := by
  cases host with
  | little => exact natToBytesLE_mem n x
  | big =>
    intro b hb
    exact natToBytesLE_mem n x b (List.mem_reverse.mp hb)

/-- `storeNat` for the two orders are elementwise reverses of each other. -/
theorem storeNat_big_eq_reverse (n x : Nat) :
    storeNat Endian.big n x = (storeNat Endian.little n x).reverse := rfl

/-- Swapping a host-order representation yields the opposite-order
representation. -/
theorem convert_storeNat {host target : Endian} (h : host ≠ target) (n x : Nat) :
    convert_endian host (storeNat host n x) = storeNat target n x := by
  rw [convert_endian_eq_reverse host _ (storeNat_mem host n x)]
  cases host with
  | little =>
    cases target with
    | little => exact absurd rfl h
    | big => rfl
  | big =>
    cases target with
    | little =>
      show (storeNat Endian.little n x).reverse.reverse = _
      rw [List.reverse_reverse]
    | big => exact absurd rfl h

theorem hostData_length (host : Endian) (size : Nat) :
    ∀ vals : List Nat, (hostData host size vals).length = vals.length * size := by
  intro vals
  induction vals with
  | nil => simp [hostData]
  | cons v tl ih =>
    simp only [hostData, List.map_cons, List.flatten_cons, List.length_append,
      storeNat_length]
    rw [show ((tl.map (storeNat host size)).flatten).length
        = (hostData host size tl).length from rfl, ih]
    simp only [List.length_cons]
    ring

theorem hostData_mem (host : Endian) (size : Nat) (vals : List Nat) :
    ∀ b ∈ hostData host size vals, b < 256 := by
  intro b hb
  simp only [hostData, List.mem_flatten, List.mem_map] at hb
  obtain ⟨l, ⟨v, _, rfl⟩, hbl⟩ := hb
  exact storeNat_mem host size v b hbl

/-- Applying a per-element transformation to the elements of a flat image of
uniformly sized blocks is the same as mapping over the blocks. -/
theorem flatten_mapElements (f : List Nat → List Nat) (size : Nat) (hsize : 0 < size) :
    ∀ ls : List (List Nat), (∀ l ∈ ls, l.length = size) →
      ((List.range ls.length).map (fun j => f (element ls.flatten size j))).flatten
        = (ls.map f).flatten := by
  intro ls
  induction ls with
  | nil => intro _; rfl
  | cons l tl ih =>
    intro hlen
    have hl : l.length = size := hlen l (by simp)
    simp only [List.length_cons, List.range_succ_eq_map, List.map_cons,
      List.flatten_cons, List.map_map]
    have h0 : element (l ++ tl.flatten) size 0 = l := by
      unfold element
      simp only [Nat.zero_mul, List.drop_zero]
      exact List.take_left' hl
    rw [h0]
    congr 1
    have hrest : ∀ j, element (l ++ tl.flatten) size (j + 1) = element tl.flatten size j := by
      intro j
      rw [element_succ]
      congr 1
      exact List.drop_left' hl
    have : (List.range tl.length).map ((fun j => f (element (l ++ tl.flatten) size j)) ∘ Nat.succ)
        = (List.range tl.length).map (fun j => f (element tl.flatten size j)) := by
      apply List.map_congr_left
      intro j _
      simp only [Function.comp]
      rw [show Nat.succ j = j + 1 from rfl, hrest j]
    rw [this]
    exact ih (fun l2 h2 => hlen l2 (by simp [h2]))

/-- `convertedSlice` starting at element 0 over a flat image of uniform
blocks is the per-block swap. -/
theorem convertedSlice_flatten (host : Endian) (size : Nat) (hsize : 0 < size)
    (ls : List (List Nat)) (hlen : ∀ l ∈ ls, l.length = size) :
    convertedSlice host ls.flatten size 0 ls.length
      = (ls.map (convert_endian host)).flatten := by
  unfold convertedSlice
  rw [show (List.range ls.length).map
        (fun i => convert_endian host (element ls.flatten size (0 + i)))
      = (List.range ls.length).map
        (fun i => convert_endian host (element ls.flatten size i)) from by
    apply List.map_congr_left
    intro i _
    rw [Nat.zero_add]]
  exact flatten_mapElements (convert_endian host) size hsize ls hlen

/-- Without a swap, the read loop deposits the raw stream prefix. -/
theorem readBytes_noswap (host : Endian) (size : Nat) :
    ∀ (n : Nat) (stream : List Nat),
      readBytes host false size n stream = stream.take (n * size) := by
  intro n
  induction n with
  | zero => intro stream; simp [readBytes]
  | succ n ih =>
    intro stream
    rw [readBytes, if_neg (by simp), ih]
    have e : (n + 1) * size = size + n * size := by ring
    rw [e, List.take_add]

/-- With a swap on both sides, reading back a swapped stream restores the
original bytes. -/
theorem readBytes_swap_conv (host : Endian) (size : Nat) (hsize : 0 < size) :
    ∀ (num : Nat) (data : List Nat), data.length = num * size →
      (∀ b ∈ data, b < 256) →
      readBytes host true size num (convertedSlice host data size 0 num) = data := by
  intro num
  induction num with
  | zero =>
    intro data hlen _
    simp only [Nat.zero_mul, List.length_eq_zero] at hlen
    subst hlen
    rfl
  | succ num ih =>
    intro data hlen hmem
    rw [convertedSlice_cons]
    have h0 : element data size 0 = data.take size := by
      unfold element
      simp
    have hszle : size ≤ data.length := by
      have : 1 * size ≤ (num + 1) * size := Nat.mul_le_mul_right _ (by omega)
      omega
    have htlen : (data.take size).length = size := by
      simp only [List.length_take]
      omega
    have hclen : (convert_endian host (element data size 0)).length = size := by
      rw [convert_endian_length, h0, htlen]
    rw [readBytes, if_pos rfl]
    have htake : (convert_endian host (element data size 0)
        ++ convertedSlice host data size (0 + 1) num).take size
        = convert_endian host (element data size 0) :=
      List.take_left' hclen
    have hdrop : (convert_endian host (element data size 0)
        ++ convertedSlice host data size (0 + 1) num).drop size
        = convertedSlice host data size (0 + 1) num :=
      List.drop_left' hclen
    rw [htake, hdrop]
    have hmemtk : ∀ b ∈ data.take size, b < 256 := fun b hb =>
      hmem b (List.mem_of_mem_take hb)
    have hinv : convert_endian host (convert_endian host (element data size 0))
        = data.take size := by
      rw [h0]
      exact convert_endian_involutive host _ hmemtk
    rw [hinv]
    have hshift : convertedSlice host data size (0 + 1) num
        = convertedSlice host (data.drop size) size 0 num := by
      unfold convertedSlice
      congr 1
      apply List.map_congr_left
      intro i _
      have e : 0 + 1 + i = i + 1 := by omega
      have e2 : (0 : Nat) + i = i := by omega
      rw [e, e2, element_succ]
    have hdlen2 : (data.drop size).length = num * size := by
      simp only [List.length_drop]
      have e : (num + 1) * size = num * size + size := by ring
      omega
    rw [hshift, ih (data.drop size) hdlen2
      (fun b hb => hmem b (List.mem_of_mem_drop hb))]
    exact List.take_append_drop size data

theorem write_endian_invalid {host target : Endian} {filePresent : Bool}
    {dataOpt : Option (List Nat)} {num size cap fuel : Nat} {allocOk : Bool}
    (h : filePresent = false ∨ dataOpt = none ∨ size = 0 ∨ num = 0) :
    write_endian host filePresent dataOpt num size target allocOk cap fuel
      = (WStatus.err, ⟨dataOpt.getD [], List.replicate buffer_size 0, cap, []⟩) := by
  unfold write_endian
  rcases h with h | h | h | h <;> subst h <;> simp

theorem write_endian_eq_fast {host target : Endian} {data : List Nat}
    {num size cap fuel : Nat} {allocOk : Bool}
    (hs : size ≠ 0) (hn : num ≠ 0) (hswap : swap_needed host target = false) :
    write_endian host true (some data) num size target allocOk cap fuel
      = if fwriteCount cap size num = num
        then (WStatus.ok, ⟨data, List.replicate buffer_size 0, cap - num * size,
              [data.take (num * size)]⟩)
        else (WStatus.err, ⟨data, List.replicate buffer_size 0,
              cap - fwriteCount cap size num * size,
              [data.take (fwriteCount cap size num * size)]⟩) := by
  unfold write_endian
  simp [hs, hn, hswap]

theorem write_endian_eq_swap {host target : Endian} {data : List Nat}
    {num size cap fuel : Nat} {allocOk : Bool}
    (hs : size ≠ 0) (hn : num ≠ 0) (hswap : swap_needed host target = true) :
    write_endian host true (some data) num size target allocOk cap fuel
      = if allocOk
        then writeLoop host num size (buffer_size / size) fuel 0
              ⟨data, List.replicate buffer_size 0, cap, []⟩
        else (WStatus.err, ⟨data, List.replicate buffer_size 0, cap, []⟩) := by
  unfold write_endian
  simp [hs, hn, hswap]
  cases allocOk <;> simp

theorem read_endian_invalid {host source : Endian} {filePresent : Bool}
    {dataOpt : Option (List Nat)} {num size : Nat} {stream : List Nat}
    (h : filePresent = false ∨ dataOpt = none ∨ size = 0) :
    read_endian host filePresent dataOpt num size source stream
      = (false, ⟨dataOpt.getD [], stream⟩) := by
  unfold read_endian
  rcases h with h | h | h <;> subst h <;> simp

theorem read_endian_eq_loop {host source : Endian} {data : List Nat}
    {num size : Nat} {stream : List Nat} (hs : size ≠ 0) :
    read_endian host true (some data) num size source stream
      = readLoop host (swap_needed host source) size num 0 ⟨data, stream⟩ := by
  unfold read_endian
  simp [hs]

theorem readBytes_length (host : Endian) (swap : Bool) (size : Nat) :
    ∀ (n : Nat) (stream : List Nat), n * size ≤ stream.length →
      (readBytes host swap size n stream).length = n * size := by
  intro n
  induction n with
  | zero => intro stream _; simp [readBytes]
  | succ n ih =>
    intro stream hlen
    have hsz : size ≤ stream.length := by
      have : 1 * size ≤ (n + 1) * size := Nat.mul_le_mul_right _ (by omega)
      omega
    have hchunk : (stream.take size).length = size := by
      simp only [List.length_take]
      omega
    have hcvt : ((if swap then convert_endian host (stream.take size)
        else stream.take size) : List Nat).length = size := by
      cases swap <;> simp [convert_endian_length, hchunk]
    rw [readBytes, List.length_append, hcvt, ih (stream.drop size)
      (by simp only [List.length_drop]
          have e : (n + 1) * size = n * size + size := by ring
          omega)]
    ring

/-- Per-element reversal of the little-endian image is the big-endian image. -/
theorem reversedElements_hostData (size : Nat) (hsize : 0 < size) (vals : List Nat)
    (num : Nat) (hnum : num = vals.length) :
    reversedElements (hostData Endian.little size vals) size num
      = hostData Endian.big size vals := by
  unfold reversedElements hostData
  have hlenmap : num = (vals.map (storeNat Endian.little size)).length := by
    rw [List.length_map]
    exact hnum
  rw [hlenmap]
  rw [flatten_mapElements List.reverse size hsize (vals.map (storeNat Endian.little size))
    (by intro l hl
        obtain ⟨v, _, rfl⟩ := List.mem_map.mp hl
        exact storeNat_length Endian.little size v)]
  rw [List.map_map]
  congr 1

/-- Master stream characterization: a successful `write_endian` of the host
image of an array of values puts the target-order image of those values on
the stream, whatever the host order. -/
theorem write_endian_ok_stream (host target : Endian) (vals : List Nat)
    (size num cap fuel : Nat) (allocOk : Bool) (s : WState)
    (hsize : 0 < size) (hnum : num = vals.length)
    (heq : write_endian host true (some (hostData host size vals)) num size target
        allocOk cap fuel = (WStatus.ok, s)) :
    s.calls.flatten = hostData target size vals := by
  have hs : size ≠ 0 := by omega
  by_cases hn : num = 0
  · rw [write_endian_invalid (Or.inr (Or.inr (Or.inr hn)))] at heq
    exact absurd (congrArg Prod.fst heq) (by simp)
  by_cases hswap : host = target
  · subst hswap
    rw [write_endian_eq_fast hs hn (swap_needed_self host)] at heq
    by_cases ht : fwriteCount cap size num = num
    · rw [if_pos ht] at heq
      have hsv : s = ⟨hostData host size vals, List.replicate buffer_size 0,
          cap - num * size, [(hostData host size vals).take (num * size)]⟩ :=
        ((Prod.mk.injEq _ _ _ _).mp heq).2.symm
      subst hsv
      simp only [List.flatten_cons, List.flatten_nil, List.append_nil]
      apply List.take_of_length_le
      rw [hostData_length, hnum]
    · rw [if_neg ht] at heq
      exact absurd (congrArg Prod.fst heq) (by simp)
  · rw [write_endian_eq_swap hs hn (swap_needed_of_ne hswap)] at heq
    cases allocOk with
    | false =>
      simp only [if_false, Bool.false_eq_true] at heq
      exact absurd (congrArg Prod.fst heq) (by simp)
    | true =>
      simp only [if_true] at heq
      have hspec := writeLoop_ok_spec host num size (buffer_size / size)
        (Nat.div_mul_le_self buffer_size size) fuel 0
        ⟨hostData host size vals, List.replicate buffer_size 0, cap, []⟩ s heq
        (by show (hostData host size vals).length = num * size
            rw [hostData_length, hnum])
        (by show (List.replicate buffer_size 0).length = 256
            rw [List.length_replicate]
            rfl)
        (by omega)
      have hflat := hspec.2.1
      simp only [List.flatten_nil, List.nil_append, Nat.sub_zero] at hflat
      rw [hflat]
      show convertedSlice host (hostData host size vals) size 0 num = _
      unfold hostData
      have hlenmap : num = (vals.map (storeNat host size)).length := by
        rw [List.length_map]
        exact hnum
      rw [hlenmap]
      rw [convertedSlice_flatten host size hsize (vals.map (storeNat host size))
        (by intro l hl
            obtain ⟨v, _, rfl⟩ := List.mem_map.mp hl
            exact storeNat_length host size v)]
      rw [List.map_map]
      congr 1
      apply List.map_congr_left
      intro v _
      simp only [Function.comp]
      exact convert_storeNat hswap size v

/-- Claim C4: when the requested order equals the host order, a write
performs a single bulk `fwrite`; on success the emitted bytes are a verbatim
copy of the `num * size` input bytes; the call fails exactly when the
underlying write transfers fewer than `num` elements. -/
theorem C4_fast_path_verbatim (host : Endian) (data : List Nat)
    (num size cap fuel : Nat) (allocOk : Bool)
    (hs : size ≠ 0) (hn : num ≠ 0) (hlen : data.length = num * size) :
    ((write_endian host true (some data) num size host allocOk cap fuel).2).calls.length = 1 ∧
    ((write_endian host true (some data) num size host allocOk cap fuel).1 = WStatus.ok →
      ((write_endian host true (some data) num size host allocOk cap fuel).2).calls = [data]) ∧
    ((write_endian host true (some data) num size host allocOk cap fuel).1 = WStatus.err ↔
      fwriteCount cap size num < num) := by
  rw [write_endian_eq_fast hs hn (swap_needed_self host)]
  have hle : fwriteCount cap size num ≤ num := Nat.min_le_left _ _
  by_cases ht : fwriteCount cap size num = num
  · rw [if_pos ht]
    refine ⟨rfl, ?_, ?_⟩
    · intro _
      have : data.take (num * size) = data := List.take_of_length_le (le_of_eq hlen)
      rw [this]
    · constructor
      · intro h
        exact absurd h (by simp)
      · intro h
        omega
  · rw [if_neg ht]
    refine ⟨rfl, ?_, ?_⟩
    · intro h
      exact absurd h (by simp)
    · constructor
      · intro _
        omega
      · intro _
        rfl

/-- Witness for C4 at a concrete input. -/
theorem C4_fast_path_verbatim_witness :
    (2 ≠ 0 ∧ 1 ≠ 0 ∧ ([1, 2] : List Nat).length = 1 * 2) ∧
    (((write_endian Endian.little true (some [1, 2]) 1 2 Endian.little true 2 1).2).calls.length = 1 ∧
    ((write_endian Endian.little true (some [1, 2]) 1 2 Endian.little true 2 1).1 = WStatus.ok →
      ((write_endian Endian.little true (some [1, 2]) 1 2 Endian.little true 2 1).2).calls = [[1, 2]]) ∧
    ((write_endian Endian.little true (some [1, 2]) 1 2 Endian.little true 2 1).1 = WStatus.err ↔
      fwriteCount 2 2 1 < 1)) :=
  ⟨⟨by decide, by decide, by decide⟩,
    C4_fast_path_verbatim Endian.little [1, 2] 1 2 2 1 true (by decide) (by decide) (by decide)⟩

/-- Claim C5: `write_be` and `write_le` return an error when the stream
handle is absent, the data pointer is absent, the element size is 0, or the
element count is 0. -/
theorem C5_write_rejects_invalid (host : Endian) (filePresent : Bool)
    (dataOpt : Option (List Nat)) (num size cap fuel : Nat) (allocOk : Bool)
    (h : filePresent = false ∨ dataOpt = none ∨ size = 0 ∨ num = 0) :
    (write_be host filePresent dataOpt num size allocOk cap fuel).1 = WStatus.err ∧
    (write_le host filePresent dataOpt num size allocOk cap fuel).1 = WStatus.err := by
  unfold write_be write_le
  rw [write_endian_invalid h, write_endian_invalid h]
  exact ⟨rfl, rfl⟩

/-- Witness for C5 at a concrete input (`num = 0`). -/
theorem C5_write_rejects_invalid_witness :
    ((false : Bool) = false ∨ (some [(1 : Nat)]) = none ∨ (1 : Nat) = 0 ∨ (0 : Nat) = 0) ∧
    ((write_be Endian.little true (some [1]) 0 1 true 8 8).1 = WStatus.err ∧
     (write_le Endian.little true (some [1]) 0 1 true 8 8).1 = WStatus.err) :=
  ⟨Or.inr (Or.inr (Or.inr rfl)),
    C5_write_rejects_invalid Endian.little true (some [1]) 0 1 8 8 true
      (Or.inr (Or.inr (Or.inr rfl)))⟩

/-- Claim C6: `read_be`/`read_le` fail when the stream handle or destination
pointer is absent or the size is 0, but accept `num = 0`, returning success
and consuming no bytes — whereas `write_be`/`write_le` reject `num = 0`. -/
theorem C6_read_num_zero_asymmetry (host : Endian) (filePresent : Bool)
    (dataOpt : Option (List Nat)) (num size cap fuel : Nat) (allocOk : Bool)
    (stream data : List Nat) :
    ((filePresent = false ∨ dataOpt = none ∨ size = 0) →
      (read_be host filePresent dataOpt num size stream).1 = false ∧
      (read_le host filePresent dataOpt num size stream).1 = false) ∧
    (size ≠ 0 →
      read_be host true (some data) 0 size stream = (true, ⟨data, stream⟩) ∧
      read_le host true (some data) 0 size stream = (true, ⟨data, stream⟩)) ∧
    (write_be host true (some data) 0 size allocOk cap fuel).1 = WStatus.err ∧
    (write_le host true (some data) 0 size allocOk cap fuel).1 = WStatus.err := by
  refine ⟨?_, ?_, ?_, ?_⟩
  · intro h
    unfold read_be read_le
    rw [read_endian_invalid h, read_endian_invalid h]
    exact ⟨rfl, rfl⟩
  · intro hs
    unfold read_be read_le
    rw [read_endian_eq_loop hs, read_endian_eq_loop hs]
    exact ⟨rfl, rfl⟩
  · show (write_endian host true (some data) 0 size Endian.big allocOk cap fuel).1 = _
    rw [write_endian_invalid (Or.inr (Or.inr (Or.inr rfl)))]
  · show (write_endian host true (some data) 0 size Endian.little allocOk cap fuel).1 = _
    rw [write_endian_invalid (Or.inr (Or.inr (Or.inr rfl)))]

/-- Witness for C6 at concrete inputs. -/
theorem C6_read_num_zero_asymmetry_witness :
    (read_be Endian.little false (some [9]) 1 1 [1, 2]).1 = false ∧
    read_be Endian.little true (some [9]) 0 1 [1, 2] = (true, ⟨[9], [1, 2]⟩) ∧
    (write_be Endian.little true (some [9]) 0 1 true 8 8).1 = WStatus.err :=
  ⟨((C6_read_num_zero_asymmetry Endian.little false (some [9]) 1 1 8 8 true [1, 2] [9]).1
      (Or.inl rfl)).1,
   ((C6_read_num_zero_asymmetry Endian.little true (some [9]) 0 1 8 8 true [1, 2] [9]).2.1
      (by decide)).1,
   (C6_read_num_zero_asymmetry Endian.little true (some [9]) 0 1 8 8 true [1, 2] [9]).2.2.1⟩

/-- Claim C8: `convert_endian` applied twice restores the original bytes for
every element size (including 1, 2, 3, 4, 5, 8), and for size 1 a single
application already leaves the byte unchanged. -/
theorem C8_swap_involutive (host : Endian) (elem : List Nat)
    (hb : ∀ b ∈ elem, b < 256) :
    convert_endian host (convert_endian host elem) = elem ∧
    (elem.length = 1 → convert_endian host elem = elem) := by
  refine ⟨convert_endian_involutive host elem hb, ?_⟩
  intro h1
  rw [convert_endian_eq_reverse host elem hb]
  obtain ⟨a, rfl⟩ := List.length_eq_one.mp h1
  rfl

/-- Witness for C8 at a concrete 3-byte element. -/
theorem C8_swap_involutive_witness :
    (∀ b ∈ [(171 : Nat), 205, 3], b < 256) ∧
    (convert_endian Endian.little (convert_endian Endian.little [171, 205, 3]) = [171, 205, 3] ∧
      (([171, 205, 3] : List Nat).length = 1 →
        convert_endian Endian.little [171, 205, 3] = [171, 205, 3])) :=
  ⟨by decide, C8_swap_involutive Endian.little [171, 205, 3] (by decide)⟩

/-- Claim C9: the caller buffer passed to a write is never mutated: on every
path (validation failure, fast path, swap path with any outcome) the final
state carries the source bytes unchanged; each element is swapped only in the
scratch-buffer copy. -/
theorem C9_source_never_mutated (host target : Endian) (filePresent : Bool)
    (dataOpt : Option (List Nat)) (num size : Nat) (allocOk : Bool) (cap fuel : Nat) :
    ((write_endian host filePresent dataOpt num size target allocOk cap fuel).2).data
      = dataOpt.getD [] := by
  by_cases hv : filePresent = false ∨ dataOpt = none ∨ size = 0 ∨ num = 0
  · rw [write_endian_invalid hv]
  · push_neg at hv
    obtain ⟨hf, hd, hs, hn⟩ := hv
    have hf2 : filePresent = true := by
      cases filePresent with
      | false => exact absurd rfl hf
      | true => rfl
    obtain ⟨data, rfl⟩ : ∃ d, dataOpt = some d := by
      cases dataOpt with
      | none => exact absurd rfl hd
      | some d => exact ⟨d, rfl⟩
    subst hf2
    by_cases hswap : swap_needed host target = true
    · rw [write_endian_eq_swap hs hn hswap]
      cases allocOk with
      | false => simp
      | true =>
        simp only [if_true]
        rw [writeLoop_data]
        rfl
    · rw [write_endian_eq_fast hs hn (Bool.not_eq_true _ ▸ eq_false_of_ne_true hswap)]
      by_cases ht : fwriteCount cap size num = num
      · rw [if_pos ht]
        rfl
      · rw [if_neg ht]
        rfl

/-- Claim C10: a write that fails before any I/O (invalid arguments or
scratch-buffer allocation failure) writes no bytes to the stream, and a read
that fails argument validation leaves the destination untouched. -/
theorem C10_failure_before_io (host target source : Endian) (filePresent : Bool)
    (dataOpt : Option (List Nat)) (num size cap fuel : Nat) (allocOk : Bool)
    (stream data : List Nat) :
    ((filePresent = false ∨ dataOpt = none ∨ size = 0 ∨ num = 0) →
      (write_endian host filePresent dataOpt num size target allocOk cap fuel).1
          = WStatus.err ∧
      ((write_endian host filePresent dataOpt num size target allocOk cap fuel).2).calls
          = []) ∧
    (size ≠ 0 → num ≠ 0 → host ≠ target → allocOk = false →
      (write_endian host true (some data) num size target allocOk cap fuel).1
          = WStatus.err ∧
      ((write_endian host true (some data) num size target allocOk cap fuel).2).calls
          = []) ∧
    ((filePresent = false ∨ dataOpt = none ∨ size = 0) →
      read_endian host filePresent dataOpt num size source stream
        = (false, ⟨dataOpt.getD [], stream⟩)) := by
  refine ⟨?_, ?_, ?_⟩
  · intro h
    rw [write_endian_invalid h]
    exact ⟨rfl, rfl⟩
  · intro hs hn hne hao
    subst hao
    rw [write_endian_eq_swap hs hn (swap_needed_of_ne hne)]
    simp
  · intro h
    exact read_endian_invalid h

/-- Witness for C10 at concrete inputs. -/
theorem C10_failure_before_io_witness :
    ((write_endian Endian.little false (some [1]) 1 1 Endian.big true 8 8).1 = WStatus.err ∧
      ((write_endian Endian.little false (some [1]) 1 1 Endian.big true 8 8).2).calls = []) ∧
    ((write_endian Endian.little true (some [1]) 1 1 Endian.big false 8 8).1 = WStatus.err ∧
      ((write_endian Endian.little true (some [1]) 1 1 Endian.big false 8 8).2).calls = []) ∧
    read_endian Endian.little true (some [9]) 1 0 Endian.big [1, 2]
      = (false, ⟨[9], [1, 2]⟩) :=
  ⟨(C10_failure_before_io Endian.little Endian.big Endian.big false (some [1]) 1 1 8 8 true
      [1, 2] [1]).1 (Or.inl rfl),
   (C10_failure_before_io Endian.little Endian.big Endian.big true (some [1]) 1 1 8 8 false
      [1, 2] [1]).2.1 (by decide) (by decide) (by decide) rfl,
   (C10_failure_before_io Endian.little Endian.big Endian.big true (some [9]) 1 0 8 8 true
      [1, 2] [9]).2.2 (Or.inr (Or.inr rfl))⟩

/-- Claim C1 (amended): for every element size `1 ≤ size ≤ 256` (the scratch
buffer capacity), either byte order, and every array of `num ≥ 1` elements,
writing the array and reading the produced stream back with the matching
order succeeds and reproduces the array exactly. -/
theorem C1_roundtrip (host order : Endian) (data dest : List Nat)
    (num size cap fuel : Nat)
    (hsize1 : 1 ≤ size) (hsize2 : size ≤ 256) (hnum : 1 ≤ num)
    (hlen : data.length = num * size) (hmem : ∀ b ∈ data, b < 256)
    (hdest : dest.length = num * size) (hcap : num * size ≤ cap) (hfuel : num < fuel) :
    ∃ s, write_endian host true (some data) num size order true cap fuel
        = (WStatus.ok, s) ∧
      read_endian host true (some dest) num size order s.calls.flatten
        = (true, ⟨data, []⟩) := by
  have hs : size ≠ 0 := by omega
  have hn : num ≠ 0 := by omega
  by_cases hswap : host = order
  · subst hswap
    have ht : fwriteCount cap size num = num := by
      unfold fwriteCount
      have : num ≤ cap / size := (Nat.le_div_iff_mul_le (by omega)).mpr hcap
      omega
    refine ⟨⟨data, List.replicate buffer_size 0, cap - num * size,
      [data.take (num * size)]⟩, ?_, ?_⟩
    · rw [write_endian_eq_fast hs hn (swap_needed_self host), if_pos ht]
    · show read_endian host true (some dest) num size host
        ([data.take (num * size)] : List (List Nat)).flatten = (true, ⟨data, []⟩)
      have hstream : ([data.take (num * size)] : List (List Nat)).flatten = data := by
        simp [List.take_of_length_le (le_of_eq hlen)]
      rw [hstream, read_endian_eq_loop hs]
      rw [readLoop_ok_spec host _ size (by omega) num 0 ⟨dest, data⟩
        (by show (0 + num) * size ≤ dest.length
            rw [Nat.zero_add, hdest])
        (by show num * size ≤ data.length
            rw [hlen])]
      dsimp only
      rw [swap_needed_self, readBytes_noswap, List.take_of_length_le (le_of_eq hlen)]
      rw [Nat.zero_mul, writeSlice_all (show dest.length ≤ data.length by omega)]
      rw [List.drop_of_length_le (le_of_eq hlen)]
  · have hswb := swap_needed_of_ne hswap
    have hbe : 0 < buffer_size / size := by
      apply Nat.le_div_iff_mul_le (by omega) |>.mpr
      show 1 * size ≤ buffer_size
      rw [Nat.one_mul]
      exact hsize2
    have hok := writeLoop_terminates host num size (buffer_size / size) (by omega) hbe
      (Nat.div_mul_le_self _ _) fuel 0 ⟨data, List.replicate buffer_size 0, cap, []⟩
      (by show data.length = num * size
          exact hlen)
      (by show (List.replicate buffer_size 0).length = 256
          rw [List.length_replicate]
          rfl)
      (by omega) (by omega)
      (by show (num - 0) * size ≤ cap
          rw [Nat.sub_zero]
          exact hcap)
    have hpair : writeLoop host num size (buffer_size / size) fuel 0
        ⟨data, List.replicate buffer_size 0, cap, []⟩
        = (WStatus.ok, (writeLoop host num size (buffer_size / size) fuel 0
            ⟨data, List.replicate buffer_size 0, cap, []⟩).2) := by
      rw [← hok]
    have hspec := writeLoop_ok_spec host num size (buffer_size / size)
      (Nat.div_mul_le_self _ _) fuel 0 _ _ hpair
      (by show data.length = num * size
          exact hlen)
      (by show (List.replicate buffer_size 0).length = 256
          rw [List.length_replicate]
          rfl)
      (by omega)
    refine ⟨(writeLoop host num size (buffer_size / size) fuel 0
        ⟨data, List.replicate buffer_size 0, cap, []⟩).2, ?_, ?_⟩
    · rw [write_endian_eq_swap hs hn hswb]
      simp only [if_true]
      exact hpair
    · have hflat := hspec.2.1
      simp only [List.flatten_nil, List.nil_append, Nat.sub_zero] at hflat
      rw [hflat]
      have hstreamlen : (convertedSlice host data size 0 num).length = num * size := by
        apply convertedSlice_length
        rw [Nat.zero_add, hlen]
      rw [read_endian_eq_loop hs]
      rw [readLoop_ok_spec host _ size (by omega) num 0
        ⟨dest, convertedSlice host data size 0 num⟩
        (by show (0 + num) * size ≤ dest.length
            rw [Nat.zero_add, hdest])
        (by show num * size ≤ (convertedSlice host data size 0 num).length
            rw [hstreamlen])]
      dsimp only
      rw [hswb, readBytes_swap_conv host size (by omega) num data hlen hmem]
      rw [Nat.zero_mul, writeSlice_all (show dest.length ≤ data.length by omega)]
      rw [List.drop_of_length_le (le_of_eq hstreamlen)]

/-- Witness for C1 at a concrete input (little-endian host, big-endian
order, one 2-byte element). -/
theorem C1_roundtrip_witness :
    ∃ s, write_endian Endian.little true (some [1, 2]) 1 2 Endian.big true 2 2
        = (WStatus.ok, s) ∧
      read_endian Endian.little true (some [0, 0]) 1 2 Endian.big s.calls.flatten
        = (true, ⟨[1, 2], []⟩) :=
  C1_roundtrip Endian.little Endian.big [1, 2] [0, 0] 1 2 2 2
    (by decide) (by decide) (by decide) (by decide) (by decide) (by decide)
    (by decide) (by decide)

/-- Counterexample to claim C1 as stated: with element size 257 (larger than
the scratch buffer) on a host whose order differs from the requested one, the
write loop makes no progress, so 1000 fuel units still leave it spinning at
element offset 0 — the write never returns success, and no round trip exists
(`writeLoop_stuck` shows this for every amount of fuel). -/
theorem C1_roundtrip_counterexample :
    (write_endian Endian.little true (some (List.replicate 257 0)) 1 257 Endian.big
        true 1000 1000).1 = WStatus.spin 0 ∧ WStatus.spin 0 ≠ WStatus.ok := by
  constructor
  · rw [write_endian_eq_swap (by decide) (by decide) (by decide)]
    simp only [if_true]
    rw [show buffer_size / 257 = 0 from rfl]
    exact writeLoop_stuck Endian.little 1 257 1000 0 _ (by decide)
  · decide

/-- Claim C2 (amended): on the write swap path with `1 ≤ size ≤ 256`, the
batching loop terminates, processes batches of exactly
`min(remaining, buffer_capacity / size)` elements, and on success has written
all `num` elements (`num * size` bytes) to the stream. -/
theorem C2_swap_batching (host target : Endian) (data : List Nat)
    (num size cap fuel : Nat)
    (hne : host ≠ target) (hsize1 : 1 ≤ size) (hsize2 : size ≤ 256) (hnum : 1 ≤ num)
    (hlen : data.length = num * size) (hcap : num * size ≤ cap) (hfuel : num < fuel) :
    ∃ s, write_endian host true (some data) num size target true cap fuel
        = (WStatus.ok, s) ∧
      s.calls.map List.length = (specBatches fuel num (buffer_size / size)).map (· * size) ∧
      s.calls.flatten.length = num * size := by
  have hs : size ≠ 0 := by omega
  have hn : num ≠ 0 := by omega
  have hswb := swap_needed_of_ne hne
  have hbe : 0 < buffer_size / size := by
    apply Nat.le_div_iff_mul_le (by omega) |>.mpr
    show 1 * size ≤ buffer_size
    rw [Nat.one_mul]
    exact hsize2
  have hok := writeLoop_terminates host num size (buffer_size / size) (by omega) hbe
    (Nat.div_mul_le_self _ _) fuel 0 ⟨data, List.replicate buffer_size 0, cap, []⟩
    (by show data.length = num * size
        exact hlen)
    (by show (List.replicate buffer_size 0).length = 256
        rw [List.length_replicate]
        rfl)
    (by omega) (by omega)
    (by show (num - 0) * size ≤ cap
        rw [Nat.sub_zero]
        exact hcap)
  have hpair : writeLoop host num size (buffer_size / size) fuel 0
      ⟨data, List.replicate buffer_size 0, cap, []⟩
      = (WStatus.ok, (writeLoop host num size (buffer_size / size) fuel 0
          ⟨data, List.replicate buffer_size 0, cap, []⟩).2) := by
    rw [← hok]
  have hspec := writeLoop_ok_spec host num size (buffer_size / size)
    (Nat.div_mul_le_self _ _) fuel 0 _ _ hpair
    (by show data.length = num * size
        exact hlen)
    (by show (List.replicate buffer_size 0).length = 256
        rw [List.length_replicate]
        rfl)
    (by omega)
  refine ⟨(writeLoop host num size (buffer_size / size) fuel 0
      ⟨data, List.replicate buffer_size 0, cap, []⟩).2, ?_, ?_, ?_⟩
  · rw [write_endian_eq_swap hs hn hswb]
    simp only [if_true]
    exact hpair
  · have hmap := hspec.2.2
    simp only [List.map_nil, List.nil_append, Nat.sub_zero] at hmap
    exact hmap
  · have hflat := hspec.2.1
    simp only [List.flatten_nil, List.nil_append, Nat.sub_zero] at hflat
    rw [hflat]
    apply convertedSlice_length
    rw [Nat.zero_add, hlen]

/-- Witness for C2 at a concrete input (three 2-byte elements). -/
theorem C2_swap_batching_witness :
    ∃ s, write_endian Endian.little true (some [1, 2, 3, 4, 5, 6]) 3 2 Endian.big
        true 6 4 = (WStatus.ok, s) ∧
      s.calls.map List.length = (specBatches 4 3 (buffer_size / 2)).map (· * 2) ∧
      s.calls.flatten.length = 3 * 2 :=
  C2_swap_batching Endian.little Endian.big [1, 2, 3, 4, 5, 6] 3 2 6 4
    (by decide) (by decide) (by decide) (by decide) (by decide) (by decide) (by decide)

/-- Counterexample to claim C2 as stated: with element size 300 the batch
formula gives `min(remaining, 256 / 300) = 0`, so the loop processes empty
batches forever; after 1000 fuel units it is still at element offset 0
(`writeLoop_stuck` shows this for every amount of fuel). -/
theorem C2_swap_batching_counterexample :
    (write_endian Endian.little true (some (List.replicate 300 0)) 1 300 Endian.big
        true 1000 1000).1 = WStatus.spin 0 ∧ WStatus.spin 0 ≠ WStatus.ok := by
  constructor
  · rw [write_endian_eq_swap (by decide) (by decide) (by decide)]
    simp only [if_true]
    rw [show buffer_size / 300 = 0 from rfl]
    exact writeLoop_stuck Endian.little 1 300 1000 0 _ (by decide)
  · decide

/-- Claim C3: the byte stream a successful `write_be` produces for a given
array of element values is identical whatever the host byte order, and equals
the stream `write_le` produces for the same values with each element's bytes
reversed. -/
theorem C3_order_host_independence (h1 h2 h3 : Endian) (vals : List Nat)
    (size num : Nat) (cap1 cap2 cap3 fuel1 fuel2 fuel3 : Nat) (a1 a2 a3 : Bool)
    (s1 s2 s3 : WState) (hsize : 0 < size) (hnum : num = vals.length)
    (w1 : write_be h1 true (some (hostData h1 size vals)) num size a1 cap1 fuel1
      = (WStatus.ok, s1))
    (w2 : write_be h2 true (some (hostData h2 size vals)) num size a2 cap2 fuel2
      = (WStatus.ok, s2))
    (w3 : write_le h3 true (some (hostData h3 size vals)) num size a3 cap3 fuel3
      = (WStatus.ok, s3)) :
    s1.calls.flatten = s2.calls.flatten ∧
    s1.calls.flatten = reversedElements s3.calls.flatten size num := by
  have e1 := write_endian_ok_stream h1 Endian.big vals size num cap1 fuel1 a1 s1
    hsize hnum w1
  have e2 := write_endian_ok_stream h2 Endian.big vals size num cap2 fuel2 a2 s2
    hsize hnum w2
  have e3 := write_endian_ok_stream h3 Endian.little vals size num cap3 fuel3 a3 s3
    hsize hnum w3
  refine ⟨by rw [e1, e2], ?_⟩
  rw [e1, e3, reversedElements_hostData size hsize vals num hnum]

set_option maxRecDepth 10000 in
/-- Witness for C3 at a concrete input: the value `0x1122` written on a
little-endian and on a big-endian host. -/
theorem C3_order_host_independence_witness :
    ((0 : Nat) < 2 ∧ 1 = [(4386 : Nat)].length ∧
      write_be Endian.little true (some (hostData Endian.little 2 [4386])) 1 2 true 2 2
        = (WStatus.ok, ⟨[34, 17], 17 :: 34 :: List.replicate 254 0, 0, [[17, 34]]⟩) ∧
      write_be Endian.big true (some (hostData Endian.big 2 [4386])) 1 2 true 2 1
        = (WStatus.ok, ⟨[17, 34], List.replicate 256 0, 0, [[17, 34]]⟩) ∧
      write_le Endian.little true (some (hostData Endian.little 2 [4386])) 1 2 true 2 1
        = (WStatus.ok, ⟨[34, 17], List.replicate 256 0, 0, [[34, 17]]⟩)) ∧
    ((⟨[34, 17], 17 :: 34 :: List.replicate 254 0, 0, [[17, 34]]⟩ : WState).calls.flatten
        = (⟨[17, 34], List.replicate 256 0, 0, [[17, 34]]⟩ : WState).calls.flatten ∧
      (⟨[34, 17], 17 :: 34 :: List.replicate 254 0, 0, [[17, 34]]⟩ : WState).calls.flatten
        = reversedElements
            ((⟨[34, 17], List.replicate 256 0, 0, [[34, 17]]⟩ : WState).calls.flatten) 2 1) :=
  ⟨⟨by decide, by decide, by decide, by decide, by decide⟩,
    C3_order_host_independence Endian.little Endian.big Endian.little [4386] 2 1
      2 2 2 2 1 1 true true true
      ⟨[34, 17], 17 :: 34 :: List.replicate 254 0, 0, [[17, 34]]⟩
      ⟨[17, 34], List.replicate 256 0, 0, [[17, 34]]⟩
      ⟨[34, 17], List.replicate 256 0, 0, [[34, 17]]⟩
      (by decide) (by decide) (by decide) (by decide) (by decide)⟩

/-- Claim C7 (amended): a read from a stream holding fewer than `num * size`
bytes fails; destination elements before the failing index hold their
converted values, the failing element's first `len mod size` bytes are
overwritten with the remaining raw (unconverted) stream bytes, and the
destination beyond the stream length is untouched. -/
theorem C7_short_read (host source : Endian) (dest stream : List Nat)
    (num size : Nat) (hsize : 1 ≤ size)
    (hshort : stream.length < num * size) (hdest : dest.length = num * size) :
    read_endian host true (some dest) num size source stream
      = (false,
          ⟨readBytes host (swap_needed host source) size (stream.length / size) stream
              ++ (stream.drop (stream.length / size * size) ++ dest.drop stream.length),
            []⟩) := by
  rw [read_endian_eq_loop (by omega)]
  rw [readLoop_short_spec host _ size (by omega) num 0 ⟨dest, stream⟩
    (by show stream.length < num * size
        exact hshort)
    (by show (0 + num) * size ≤ dest.length
        rw [Nat.zero_add, hdest])]
  dsimp only
  rw [Nat.zero_mul]
  have hk : stream.length / size * size ≤ stream.length := Nat.div_mul_le_self _ _
  have hrb : (readBytes host (swap_needed host source) size (stream.length / size)
      stream).length = stream.length / size * size :=
    readBytes_length host _ size _ stream hk
  have hXlen : (readBytes host (swap_needed host source) size (stream.length / size) stream
      ++ stream.drop (stream.length / size * size)).length = stream.length := by
    rw [List.length_append, hrb, List.length_drop]
    omega
  unfold writeSlice
  rw [hXlen]
  simp only [List.take_zero, Nat.zero_add, List.nil_append, List.append_assoc]

/-- Witness for C7 at a concrete input. -/
theorem C7_short_read_witness :
    ((1 : Nat) ≤ 2 ∧ ([1, 2, 3] : List Nat).length < 2 * 2 ∧
      ([9, 9, 9, 9] : List Nat).length = 2 * 2) ∧
    read_endian Endian.little true (some [9, 9, 9, 9]) 2 2 Endian.little [1, 2, 3]
      = (false,
          ⟨readBytes Endian.little (swap_needed Endian.little Endian.little) 2
              (([1, 2, 3] : List Nat).length / 2) [1, 2, 3]
            ++ (([1, 2, 3] : List Nat).drop (([1, 2, 3] : List Nat).length / 2 * 2)
              ++ ([9, 9, 9, 9] : List Nat).drop ([1, 2, 3] : List Nat).length),
            []⟩) :=
  ⟨⟨by decide, by decide, by decide⟩,
    C7_short_read Endian.little Endian.little [9, 9, 9, 9] [1, 2, 3] 2 2
      (by decide) (by decide) (by decide)⟩

/-- Counterexample to claim C7 as stated: reading two 2-byte elements from
the 3-byte stream `[1, 2, 3]` into the destination `[9, 9, 9, 9]` fails, and
the failing element (index 1, destination bytes 2 and 3) is not left
untouched: its first byte is overwritten with the leftover stream byte `3`,
giving `[1, 2, 3, 9]` rather than `[1, 2, 9, 9]`. -/
theorem C7_short_read_counterexample :
    read_endian Endian.little true (some [9, 9, 9, 9]) 2 2 Endian.little [1, 2, 3]
      = (false, ⟨[1, 2, 3, 9], []⟩) ∧ ([1, 2, 3, 9] : List Nat) ≠ [1, 2, 9, 9] :=
  ⟨by decide, by decide⟩

end EndianIO